import Mathlib

/-!
Shallow embedding of `goodreads.py` (feed extraction, caching, document merge,
list rendering) together with proofs about the claims of its specification.

Python strings are modelled as `String` / `List Char`; Python dicts as ordered
association lists; the shared `pulldom` event generator as explicit state
passing over a `List Event`.  External collaborators (the XML event producer,
`BeautifulSoup`, `ruamel.yaml`, `json`) are modelled at the level of detail the
code observes, as documented on each definition.
-/

namespace Goodreads

deriving instance DecidableEq for Except

/-! ## Python string primitives -/

/-- Whitespace as tested by Python `str.strip` (ASCII portion, which is all the
data at hand contains). -/
def isPySpace (c : Char) : Bool := c == ' ' || c == '\t' || c == '\n' || c == '\r'

/-- Drop leading whitespace (`str.lstrip`). -/
def stripL (l : List Char) : List Char := l.dropWhile isPySpace

/-- Drop trailing whitespace (`str.rstrip`). -/
def stripR (l : List Char) : List Char := (l.reverse.dropWhile isPySpace).reverse

/-- Python `str.strip`. -/
def stripChars (l : List Char) : List Char := stripR (stripL l)

/-- Python `str.strip` on `String`. -/
def pyStrip (s : String) : String := String.mk (stripChars s.data)

/-- Helper for `splitLinesKeep`: accumulate the current (reversed) line. -/
def splitLinesAux : List Char → List Char → List (List Char)
  | [], acc => if acc.isEmpty then [] else [acc.reverse]
  | c :: cs, acc =>
    if c = '\n' then (acc.reverse ++ ['\n']) :: splitLinesAux cs []
    else splitLinesAux cs (c :: acc)

/-- Python file/`StringIO` line iteration: split into lines, each keeping its
trailing newline; a last line without a newline is yielded as-is. -/
def splitLinesKeep (l : List Char) : List (List Char) := splitLinesAux l []

/-- The lines of a string, newlines kept, as Python line iteration yields them. -/
def pyLines (s : String) : List String := (splitLinesKeep s.data).map String.mk

/-- Helper for `splitOnChar`. -/
def splitOnCharAux (sep : Char) : List Char → List Char → List (List Char)
  | [], acc => [acc.reverse]
  | c :: cs, acc =>
    if c = sep then acc.reverse :: splitOnCharAux sep cs []
    else splitOnCharAux sep cs (c :: acc)

/-- Python `str.split(sep)`: split on every occurrence of `sep`, separators
dropped; always returns at least one (possibly empty) piece. -/
def splitOnChar (sep : Char) (l : List Char) : List (List Char) := splitOnCharAux sep l []

/-- `str.split("\n")` on a `String`. -/
def splitNlStr (s : String) : List String := (splitOnChar '\n' s.data).map String.mk

/-- Python `"\n".join(lines)`. -/
def joinNl : List String → String
  | [] => ""
  | [x] => x
  | x :: y :: xs => x ++ "\n" ++ joinNl (y :: xs)

/-- Fold a list of digit characters into the number they denote. -/
def digitsVal (l : List Char) : Nat := l.foldl (fun a c => a * 10 + (c.toNat - 48)) 0

/-- Parse a non-empty all-digit run, as the digit part of Python `int()` does. -/
def parseDigits (l : List Char) : Option Nat :=
  if l ≠ [] ∧ l.all Char.isDigit then some (digitsVal l) else none

/-! ## Field parsers (`to_int`, `to_float`, `to_date`) -/

/-- `to_int`: Python `int(text)` — surrounding whitespace, an optional sign and
a non-empty digit run; anything else raises `ValueError`, which the source
turns into `None`. -/
def to_int (text : String) : Option Int :=
  match stripChars text.data with
  | '-' :: ds => (parseDigits ds).map (fun n => -(n : Int))
  | '+' :: ds => (parseDigits ds).map (fun n => (n : Int))
  | ds => (parseDigits ds).map (fun n => (n : Int))

/-- Unsigned decimal literal for `to_float`: digits with an optional fractional
part (`"4"`, `"4.5"`, `"4."`, `".5"`). -/
def parseUnsignedDec (l : List Char) : Option ℚ :=
  match l.span Char.isDigit with
  | (ip, []) => if ip ≠ [] then some ((digitsVal ip : ℚ)) else none
  | (ip, '.' :: fp) =>
    if fp.all Char.isDigit ∧ (ip ≠ [] ∨ fp ≠ []) then
      some ((digitsVal ip : ℚ) + (digitsVal fp : ℚ) / ((10 : ℚ) ^ fp.length))
    else none
  | _ => none

/-- `to_float`: Python `float(text)` modelled on plain decimal literals, which
is the only shape the feed's `average_rating` field carries; failure is the
`None` fallback of the source. Rationals stand in for IEEE doubles: every
decimal the feed carries is represented exactly either way, and the cache
claims only need value identity. -/
def to_float (text : String) : Option ℚ :=
  match stripChars text.data with
  | '-' :: ds => (parseUnsignedDec ds).map (fun q => -q)
  | '+' :: ds => parseUnsignedDec ds
  | ds => parseUnsignedDec ds

/-- A timezone-aware `datetime.datetime` as the program uses it: the fields
`strptime` fills, plus the fixed UTC offset in minutes. -/
structure PyDateTime where
  year : Nat
  month : Nat
  day : Nat
  hour : Nat
  minute : Nat
  second : Nat
  tzMinutes : Int
deriving DecidableEq

def weekdayAbbrevs : List String := ["Mon", "Tue", "Wed", "Thu", "Fri", "Sat", "Sun"]

def monthAbbrevs : List String :=
  ["Jan", "Feb", "Mar", "Apr", "May", "Jun", "Jul", "Aug", "Sep", "Oct", "Nov", "Dec"]

def monthNum (s : String) : Option Nat := (monthAbbrevs.indexOf? s).map (fun i => i + 1)

def isLeapYear (y : Nat) : Bool := (y % 4 == 0 && y % 100 != 0) || y % 400 == 0

def daysInMonth (y m : Nat) : Nat :=
  if m = 2 then (if isLeapYear y then 29 else 28)
  else if m = 4 ∨ m = 6 ∨ m = 9 ∨ m = 11 then 30
  else 31

/-- A digit run of at most `w` characters, as `strptime` numeric directives
accept. -/
def parseDigitsUpTo (w : Nat) (l : List Char) : Option Nat :=
  if l.length ≤ w then parseDigits l else none

/-- `to_date`: `datetime.strptime(text, "%a, %d %b %Y %H:%M:%S %z")`, the fixed
feed timestamp format (`"Fri, 30 Nov 2018 07:08:00 -0800"`); any failure is the
`None` fallback of the source.  `%z` is modelled in its `±HHMM` shape, the one
the feed uses. -/
def to_date (text : String) : Option PyDateTime :=
  match splitOnChar ' ' text.data with
  | [wd, dayS, monS, yearS, timeS, tzS] => do
    let wdName := String.mk wd
    guard (wdName.length = 4 ∧ wd.getLast? = some ',' ∧
      weekdayAbbrevs.contains (String.mk (wd.dropLast)))
    let day ← parseDigitsUpTo 2 dayS
    let mon ← monthNum (String.mk monS)
    let year ← parseDigitsUpTo 4 yearS
    guard (1 ≤ day ∧ day ≤ daysInMonth year mon)
    let (hh, mm, ss) ← match splitOnChar ':' timeS with
      | [h, m, s] => do
        let hh ← parseDigitsUpTo 2 h
        let mm ← parseDigitsUpTo 2 m
        let ss ← parseDigitsUpTo 2 s
        guard (hh ≤ 23 ∧ mm ≤ 59 ∧ ss ≤ 61)
        pure (hh, mm, ss)
      | _ => none
    let tz ← match tzS with
      | sign :: h1 :: h2 :: m1 :: m2 :: [] => do
        guard ([h1, h2, m1, m2].all Char.isDigit)
        let hours := digitsVal [h1, h2]
        let mins := digitsVal [m1, m2]
        guard (hours ≤ 23 ∧ mins ≤ 59)
        let total : Int := (hours * 60 + mins : Nat)
        match sign with
        | '+' => pure total
        | '-' => pure (-total)
        | _ => none
      | _ => none
    pure ⟨year, mon, day, hh, mm, ss, tz⟩
  | _ => none

/-! ## Events and record extraction (`Event`, `parse_item`, `parse_list`) -/

/-- The `xml.dom.pulldom` event kinds flowing through the program.  Text nodes
carry `nodeName = "#text"`; element events carry the tag name and a `none`-like
node value, flattened here into plain string fields. -/
inductive Status where
  | START_ELEMENT
  | END_ELEMENT
  | CHARACTERS
  | START_DOCUMENT
deriving DecidableEq

/-- The source's `Event` dataclass: a pulldom status string plus the node's
`nodeName` / `nodeValue`. -/
structure Event where
  status : Status
  name : String
  value : String
deriving DecidableEq

def Event.is_start (e : Event) : Bool := e.status == Status.START_ELEMENT

def Event.is_end (e : Event) : Bool := e.status == Status.END_ELEMENT

def Event.is_text (e : Event) : Bool := e.status == Status.CHARACTERS

/-- A `defaultdict(str)` keyed by the extractor's "current field name", which
the source allows to be `None`; reads of missing keys yield `""`, insertion
order is kept. -/
abbrev RawItem := List (Option String × String)

/-- `defaultdict` read: missing keys give `""`. -/
def itemGet : RawItem → Option String → String
  | [], _ => ""
  | (k', v) :: rest, k => if k' = k then v else itemGet rest k

/-- `defaultdict` write: update in place, or append a fresh key at the end. -/
def itemSet : RawItem → Option String → String → RawItem
  | [], k, v => [(k, v)]
  | (k', v') :: rest, k, v =>
    if k' = k then (k, v) :: rest else (k', v') :: itemSet rest k v

/-- `item[k] += v` on a `defaultdict(str)`. -/
def itemAppend (i : RawItem) (k : Option String) (v : String) : RawItem :=
  itemSet i k (itemGet i k ++ v)

/-- Python truthiness of the `current_name` variable (`None` and `""` are
falsy). -/
def pyTruthy : Option String → Bool
  | none => false
  | some s => s != ""

/-- Helper for `soupText`: drop `<...>` tag spans. -/
def stripTagsAux : List Char → Bool → List Char
  | [], _ => []
  | c :: cs, inTag =>
    if c = '<' then stripTagsAux cs true
    else if c = '>' then stripTagsAux cs false
    else if inTag then stripTagsAux cs true
    else c :: stripTagsAux cs false

/-- Model of `BeautifulSoup(text, "html.parser").text`: the plain-text content
with markup tags removed.  Entity decoding is not modelled; on markup-free
text (every input the claims exercise) the call is the identity either way. -/
def soupText (s : String) : String := String.mk (stripTagsAux s.data false)

/-- `first(e for e in events if e.name == "item" and e.is_start)`: consume the
shared event stream through the first Start of an `item` element; if none
occurs the whole stream is consumed. -/
def skip_to_item_start : List Event → List Event
  | [] => []
  | e :: rest => if e.name = "item" ∧ e.is_start then rest else skip_to_item_start rest

/-- The body loop of `parse_item`: `takewhile(lambda e: not (e.name == "item"), events)`
around the current-field state machine.  Note the boundary test is on the
*name only* — any `item`-named event (Start or End) stops the loop, and the
boundary event is consumed from the shared stream by `takewhile`. -/
def parse_item_loop : List Event → Option String → RawItem → RawItem × List Event
  | [], _, item => (item, [])
  | e :: rest, curr, item =>
    if e.name = "item" then (item, rest)
    else if e.is_start then parse_item_loop rest (some e.name) item
    else if e.is_text ∧ pyTruthy curr then parse_item_loop rest curr (itemAppend item curr e.value)
    else if e.is_end then
      parse_item_loop rest none (itemSet item curr (soupText (pyStrip (itemGet item curr))))
    else parse_item_loop rest curr item

/-- `parse_item(events)`: skip to the first Start of `item`, then run the field
loop; returns the assembled raw item together with the rest of the shared
stream. -/
def parse_item (events : List Event) : RawItem × List Event :=
  parse_item_loop (skip_to_item_start events) none []

/-- `Book`, the source dataclass, fields in declaration order. -/
structure Book where
  title : String
  url : String
  book_id : String
  description : String
  pages : Option Int
  author : String
  isbn : Option String
  read_date : Option PyDateTime
  rating : Option ℚ
  year : Option Int
deriving DecidableEq

/-- `Book.from_goodreads(entry)`: every read on the `defaultdict` yields `""`
for a missing field. -/
def Book.from_goodreads (entry : RawItem) : Book :=
  { title := itemGet entry (some "title")
    url := itemGet entry (some "link")
    book_id := itemGet entry (some "book_id")
    pages := to_int (itemGet entry (some "num_pages"))
    author := itemGet entry (some "author_name")
    isbn :=
      let s := pyStrip (itemGet entry (some "isbn"))
      if s = "" then none else some s
    read_date :=
      (to_date (itemGet entry (some "pubDate"))).orElse fun _ =>
        (to_date (itemGet entry (some "user_date_added"))).orElse fun _ =>
          to_date (itemGet entry (some "user_date_created"))
    rating := to_float (itemGet entry (some "average_rating"))
    year := to_int (itemGet entry (some "book_published"))
    description := itemGet entry (some "book_description") }

/-- The loop of `parse_list`: each iteration pulls one event from the shared
stream through `takewhile(lambda e: not (e.is_end and e.name == "channel"))`,
then hands the *rest* of the stream to `parse_item`; items without a truthy
`book_id` are dropped.  Fuel bounds the recursion; every iteration consumes at
least the pulled event, so `events.length + 1` is always enough. -/
def parse_list_aux : Nat → List Event → List RawItem
  | 0, _ => []
  | _ + 1, [] => []
  | fuel + 1, e :: rest =>
    if e.is_end ∧ e.name = "channel" then []
    else
      let p := parse_item rest
      if itemGet p.1 (some "book_id") ≠ "" then p.1 :: parse_list_aux fuel p.2
      else parse_list_aux fuel p.2

/-- `parse_list`, at the level of the event stream the pulldom adapter
produces for one page: yield `Book.from_goodreads(item)` for each retained raw
item. -/
def parse_list (events : List Event) : List Book :=
  (parse_list_aux (events.length + 1) events).map Book.from_goodreads

/-! ## JSON snapshot model (`set_cached` / `get_cached` / `get_list`)

`json.dump` / `json.load` are modelled at the JSON value level (they invert
each other on the primitive values involved); the interesting part — the
`default=str` stringification of `datetime` and its `fromisoformat` reversal
in `json_deserializer` — is modelled exactly. -/

/-- A primitive JSON value as the snapshot file stores them. -/
inductive JVal where
  | jstr (s : String)
  | jint (n : Int)
  | jrat (q : ℚ)
  | jnull
deriving DecidableEq

/-- The digit character for `d < 10`. -/
def digitChar (d : Nat) : Char := Char.ofNat (48 + d)

/-- Two-digit zero-padded decimal. -/
def pad2 (n : Nat) : List Char := [digitChar (n / 10), digitChar (n % 10)]

/-- Four-digit zero-padded decimal. -/
def pad4 (n : Nat) : List Char :=
  [digitChar (n / 1000), digitChar (n / 100 % 10), digitChar (n / 10 % 10), digitChar (n % 10)]

/-- `str(datetime)` for the aware, second-resolution datetimes the program
builds: `"YYYY-MM-DD HH:MM:SS±HH:MM"`. -/
def pyDateTimeStr (d : PyDateTime) : String :=
  String.mk (pad4 d.year ++ '-' :: pad2 d.month ++ '-' :: pad2 d.day ++
    ' ' :: pad2 d.hour ++ ':' :: pad2 d.minute ++ ':' :: pad2 d.second ++
    (if 0 ≤ d.tzMinutes then '+' else '-') ::
      pad2 (d.tzMinutes.natAbs / 60) ++ ':' :: pad2 (d.tzMinutes.natAbs % 60))

/-- The numeric value of one digit character. -/
def digit? (c : Char) : Option Nat := if c.isDigit then some (c.toNat - 48) else none

/-- Read one digit from the front of a character stream. -/
def readDigit : List Char → Option (Nat × List Char)
  | c :: rest => (digit? c).map (fun d => (d, rest))
  | [] => none

/-- Read a two-digit group. -/
def read2 (l : List Char) : Option (Nat × List Char) := do
  let (a, l) ← readDigit l
  let (b, l) ← readDigit l
  pure (a * 10 + b, l)

/-- Expect a literal character. -/
def readLit (c : Char) : List Char → Option (List Char)
  | c' :: rest => if c' = c then some rest else none
  | [] => none

/-- Read a UTC-offset sign. -/
def readSign : List Char → Option (Int × List Char)
  | '+' :: rest => some (1, rest)
  | '-' :: rest => some (-1, rest)
  | _ => none

/-- Read the `YYYY-MM-DD` part of an ISO timestamp. -/
def readYMD (l : List Char) : Option ((Nat × Nat × Nat) × List Char) := do
  let (y12, l) ← read2 l
  let (y34, l) ← read2 l
  let l ← readLit '-' l
  let (mo, l) ← read2 l
  let l ← readLit '-' l
  let (dy, l) ← read2 l
  pure ((y12 * 100 + y34, mo, dy), l)

/-- Read the `HH:MM:SS` part of an ISO timestamp. -/
def readHMS (l : List Char) : Option ((Nat × Nat × Nat) × List Char) := do
  let (hh, l) ← read2 l
  let l ← readLit ':' l
  let (mi, l) ← read2 l
  let l ← readLit ':' l
  let (se, l) ← read2 l
  pure ((hh, mi, se), l)

/-- Read the `±HH:MM` UTC offset of an ISO timestamp, in minutes. -/
def readOffset (l : List Char) : Option (Int × List Char) := do
  let (sg, l) ← readSign l
  let (oh, l) ← read2 l
  let l ← readLit ':' l
  let (om, l) ← read2 l
  pure (sg * ((oh * 60 + om : Nat) : Int), l)

/-- `datetime.fromisoformat` on the exact shape `str(datetime)` prints (the
only shape `json_deserializer` ever receives back from a snapshot written by
`set_cached`); anything else raises, i.e. `none`. -/
def datetime_fromisoformat (s : String) : Option PyDateTime := do
  let (ymd, l) ← readYMD s.data
  let l ← readLit ' ' l
  let (hms, l) ← readHMS l
  let (tz, l) ← readOffset l
  guard (l = [])
  pure ⟨ymd.1, ymd.2.1, ymd.2.2, hms.1, hms.2.1, hms.2.2, tz⟩

/-- The `asdict` field order of `Book`. -/
def bookFieldNames : List String :=
  ["title", "url", "book_id", "description", "pages", "author", "isbn", "read_date",
   "rating", "year"]

/-- An optional integer as JSON: `null` when absent. -/
def optIntJ : Option Int → JVal
  | none => .jnull
  | some n => .jint n

/-- One `Book` as `json.dump(asdict(book), default=str)` stores it: primitive
fields as themselves, optionals as `null`, the datetime via `default=str`. -/
def encodeBook (b : Book) : List (String × JVal) :=
  [("title", .jstr b.title), ("url", .jstr b.url), ("book_id", .jstr b.book_id),
   ("description", .jstr b.description), ("pages", optIntJ b.pages),
   ("author", .jstr b.author),
   ("isbn", match b.isbn with | none => .jnull | some s => .jstr s),
   ("read_date", match b.read_date with | none => .jnull | some d => .jstr (pyDateTimeStr d)),
   ("rating", match b.rating with | none => .jnull | some q => .jrat q),
   ("year", optIntJ b.year)]

/-- Association lookup (first binding wins, as for the unique-key dicts the
program builds). -/
def alookup {α : Type} : List (String × α) → String → Option α
  | [], _ => none
  | (k', v) :: rest, k => if k' = k then some v else alookup rest k

/-- Association update-or-append, preserving insertion order like a Python
dict. -/
def ainsert {α : Type} : List (String × α) → String → α → List (String × α)
  | [], k, v => [(k, v)]
  | (k', v') :: rest, k, v =>
    if k' = k then (k, v) :: rest else (k', v') :: ainsert rest k v

/-- `json_deserializer` + `Book(**book)` for one stored object: the
`read_date` string is put back through `fromisoformat` (empty/absent values
are left as the falsy `None`), and the constructor needs exactly the dataclass
fields.  The model is typed where CPython is not: a non-string in a string
slot cannot arise from `encodeBook` and is treated as a decode failure. -/
def decodeBook (o : List (String × JVal)) : Option Book := do
  guard (o.map Prod.fst = bookFieldNames)
  let title ← match alookup o "title" with | some (.jstr s) => some s | _ => none
  let url ← match alookup o "url" with | some (.jstr s) => some s | _ => none
  let book_id ← match alookup o "book_id" with | some (.jstr s) => some s | _ => none
  let description ← match alookup o "description" with | some (.jstr s) => some s | _ => none
  let pages ← match alookup o "pages" with
    | some .jnull => some none
    | some (.jint n) => some (some n)
    | _ => none
  let author ← match alookup o "author" with | some (.jstr s) => some s | _ => none
  let isbn ← match alookup o "isbn" with
    | some .jnull => some none
    | some (.jstr s) => some (some s)
    | _ => none
  let read_date ← match alookup o "read_date" with
    | some .jnull => some none
    | some (.jstr s) => (datetime_fromisoformat s).map some
    | _ => none
  let rating ← match alookup o "rating" with
    | some .jnull => some none
    | some (.jrat q) => some (some q)
    | _ => none
  let year ← match alookup o "year" with
    | some .jnull => some none
    | some (.jint n) => some (some n)
    | _ => none
  pure ⟨title, url, book_id, description, pages, author, isbn, read_date, rating, year⟩

/-- The field ranges under which the datetime round trip is exact.  (CPython
enforces tighter ranges on construction; these weaker bounds are all the proof
needs.) -/
def ValidDT (d : PyDateTime) : Prop :=
  d.year < 10000 ∧ d.month < 100 ∧ d.day < 100 ∧ d.hour < 100 ∧ d.minute < 100 ∧
    d.second < 100 ∧ d.tzMinutes.natAbs < 6000

instance (d : PyDateTime) : Decidable (ValidDT d) := by unfold ValidDT; infer_instance

/-- A book whose `read_date`, if present, is in range. -/
def ValidBook (b : Book) : Prop :=
  match b.read_date with
  | none => True
  | some d => ValidDT d

instance (b : Book) : Decidable (ValidBook b) := by
  unfold ValidBook
  rcases b.read_date with _ | d
  · exact inferInstanceAs (Decidable True)
  · exact inferInstanceAs (Decidable (ValidDT d))

/-- `get_cache_file`: note that the source ignores its `data_dir` argument —
the path is hard-coded under `data/`.  "Today" is the injected calendar date
string. -/
def get_cache_file (id today : String) : String :=
  "data/books-" ++ id ++ "-" ++ today ++ ".json"

/-- The cache directory: path ↦ stored JSON array of book objects. -/
abbrev CacheFS := List (String × List (List (String × JVal)))

/-- `get_cached`: `none` result when no snapshot file exists; a malformed
snapshot makes `json.load` / `Book(**...)` raise, modelled as `Except.error`. -/
def get_cached (fs : CacheFS) (id today : String) : Except Unit (Option (List Book)) :=
  match alookup fs (get_cache_file id today) with
  | none => .ok none
  | some arr =>
    match arr.mapM decodeBook with
    | none => .error ()
    | some books => .ok (some books)

/-- `set_cached`: first writer wins — an existing snapshot is never
overwritten. -/
def set_cached (fs : CacheFS) (id today : String) (books : List Book) : CacheFS :=
  if (alookup fs (get_cache_file id today)).isSome then fs
  else ainsert fs (get_cache_file id today) (books.map encodeBook)

/-- `get_list`, the Cache Gate.  The Pagination Driver (`get_pages`) is an
external collaborator; `driver` is what it would return this run, and the
`Nat` in the result counts its invocations.  `if cached := get_cached(...)`
tests Python truthiness, so an existing snapshot holding an *empty* list falls
through to a fresh fetch. -/
def get_list (driver : List Book) (fs : CacheFS) (id today : String) :
    Except Unit (List Book × CacheFS × Nat) := do
  let cached ← get_cached fs id today
  match cached with
  | some books =>
    if books ≠ [] then pure (books, fs, 0)
    else pure (driver, set_cached fs id today driver, 1)
  | none => pure (driver, set_cached fs id today driver, 1)

/-! ## YAML header model (`extract_yaml_doc`, `save_file`)

`ruamel.yaml` (typ="safe", block style, sorted keys, explicit `---`/`...`
markers) is modelled for the flat scalar mappings the program dumps.  Loaded
scalar values are kept as their raw strings (`jstr`): the program only ever
uses a loaded header as the left, losing side of `previousHeader | data`, so
only the *key set* and the re-rendered text of a loaded value are observable.
Error classification mirrors the library coarsely: lexical problems (a tab
where a token must start) scan-fail, an unterminated flow collection is a
parser-level failure, and a lone scalar or flow document is simply not a
mapping. -/

/-- The `ruamel.yaml` error classes the source's `except` clause
distinguishes. -/
inductive YamlErr where
  | scannerError
  | parserError
  | valueError
deriving DecidableEq

/-- A loaded first YAML document, as far as the program inspects it:
a block mapping, or anything that fails `isinstance(data, dict)`. -/
inductive YamlDoc where
  | dmap (pairs : List (String × JVal))
  | nonDict
deriving DecidableEq

/-- Decimal-ish rendering of a rating float in the dumped header.  No claim
inspects this text; it only needs to be a fixed function of the value. -/
def ratToDecimalStr (q : ℚ) : String :=
  toString q.num ++ (if q.den = 1 then ".0" else "/" ++ toString q.den)

/-- Render one scalar value as it appears after `key: ` in the dump. -/
def renderVal : JVal → String
  | .jstr s => s
  | .jint n => toString n
  | .jrat q => ratToDecimalStr q
  | .jnull => "null"

/-- Python dict union `a | b`: the keys of `a` in order (values overridden by
`b` where present), then the keys only in `b`, in their order. -/
def pyUnion (a b : List (String × JVal)) : List (String × JVal) :=
  a.map (fun p => (p.1, (alookup b p.1).getD p.2)) ++
    b.filter (fun p => (alookup a p.1).isNone)

/-- The distinct keys of a header mapping in sorted order (`sort_keys=True`). -/
def sortedKeys (d : List (String × JVal)) : List String :=
  List.insertionSort (· ≤ ·) (d.map Prod.fst).dedup

/-- One dumped header line. -/
def headerLineFor (d : List (String × JVal)) (k : String) : String :=
  k ++ ": " ++ renderVal ((alookup d k).getD .jnull) ++ "\n"

/-- Concatenate strings (no separator). -/
def strConcat (ls : List String) : String := ls.foldr (fun a b => a ++ b) ""

/-- `yaml.dump` of a flat mapping with `explicit_start`, `explicit_end`,
`sort_keys`, block style. -/
def yamlDump (d : List (String × JVal)) : String :=
  "---\n" ++ strConcat ((sortedKeys d).map (headerLineFor d)) ++ "...\n"

/-- A line containing only whitespace. -/
def isBlankLine (s : String) : Bool := s.data.all isPySpace

/-- Split a candidate mapping line at the first `": "`. -/
def splitColonSpace : List Char → Option (List Char × List Char)
  | [] => none
  | ':' :: ' ' :: rest => some ([], rest)
  | c :: rest => (splitColonSpace rest).map (fun p => (c :: p.1, p.2))

/-- Parse one block-mapping line into a key/value pair; a line ending in a
bare `:` carries a null value.  Loaded scalars are kept as raw `jstr` text
(see the section comment). -/
def pairOf (l : String) : Option (String × JVal) :=
  match splitColonSpace l.data with
  | some (k, v) => some (String.mk k, .jstr (String.mk v))
  | none =>
    if l.data.getLast? = some ':' then some (String.mk l.data.dropLast, .jnull) else none

/-- Body loop of a block mapping: blank lines are skipped, `...`/`---` end the
document, a tab scan-fails, and a non-pair line inside a mapping is a
parser-level error. -/
def yamlMapLoop : List String → List (String × JVal) → Except YamlErr (List (String × JVal))
  | [], acc => .ok acc.reverse
  | l :: ls, acc =>
    if isBlankLine l then yamlMapLoop ls acc
    else if l = "..." ∨ l = "---" then .ok acc.reverse
    else if '\t' ∈ l.data then .error .scannerError
    else
      match pairOf l with
      | some p => yamlMapLoop ls (p :: acc)
      | none => .error .parserError

/-- Whether a flow collection opened on the first line is ever closed. -/
def yamlFlowClosed (ls : List String) : Bool :=
  ls.any (fun x => x.data.contains ']' || x.data.contains '}')

/-- Classify the first document from its first content line: a pair line
starts a block mapping; `...`/`---` mean an empty document; an unterminated
flow collection is a parser-level error, a terminated one a non-mapping; a
bare scalar is a non-mapping. -/
def yamlDocBody : List String → Except YamlErr (Option YamlDoc)
  | [] => .ok none
  | l :: ls =>
    if isBlankLine l then yamlDocBody ls
    else if l = "..." ∨ l = "---" then .ok none
    else if '\t' ∈ l.data then .error .scannerError
    else if l.data.head? = some '[' ∨ l.data.head? = some '\x7b' then
      if yamlFlowClosed (l :: ls) then .ok (some .nonDict) else .error .parserError
    else
      match pairOf l with
      | some p => (yamlMapLoop ls [p]).map (fun ps => some (.dmap ps))
      | none => .ok (some .nonDict)

/-- `first(yaml.load_all(text))`: skip leading blank lines and one optional
`---` document-start marker, then read the first document (or `none` when the
stream is empty / the first document is empty). -/
def yaml_load_first (t : String) : Except YamlErr (Option YamlDoc) :=
  match (splitNlStr t).dropWhile isBlankLine with
  | [] => .ok none
  | l :: rest => if l = "---" then yamlDocBody rest else yamlDocBody (l :: rest)

/-- `extract_yaml_doc`: the lines strictly before the explicit `"...\n"` end
marker, re-joined with `"\n".join` (which interleaves a second newline —
faithful to joining newline-terminated lines), go to the YAML loader.
`ValueError` and `ScannerError` are caught and give `{}`; a non-dict or empty
first document gives `{}`; any other loader error — e.g. the parser-level one
an unterminated flow collection raises — propagates out of the function. -/
def extract_yaml_doc (content : String) : Except YamlErr (List (String × JVal)) :=
  match yaml_load_first (joinNl ((pyLines content).takeWhile (fun l => l ≠ "...\n"))) with
  | .error .scannerError => .ok []
  | .error .valueError => .ok []
  | .error e => .error e
  | .ok none => .ok []
  | .ok (some .nonDict) => .ok []
  | .ok (some (.dmap ps)) => .ok ps

/-- The body separator line. -/
def sepString : String := "----" ++ "\n"

/-- `extract_file_text`: if the literal `"----\n"` occurs nowhere in the
content, the whole content is returned; otherwise the `takewhile` pulls (and
discards) lines through the first line *equal to* `"----\n"` and the stripped
remainder is returned — empty when the sequence occurs only inside longer
lines. -/
def extract_file_text (content : String) : String :=
  if sepString.data <:+: content.data then
    pyStrip (strConcat (((pyLines content).dropWhile (fun l => l ≠ sepString)).drop 1))
  else content

/-- The document layout `save_file` writes: header dump, `---` plus a blank
line, the marker text plus a blank line, the `----` separator plus a blank
line, then the body text and the final newline its `print` appends. -/
def merged_doc (data : List (String × JVal)) (markers text : String) : String :=
  yamlDump data ++ "---\n\n" ++ markers ++ "\n\n" ++ "----\n\n" ++ text ++ "\n"

/-- `save_file(data, markers, path)`: `old` is the current content of the
target (`none` when the file does not exist).  The previous header is merged
below the new fields (`previous_header | data`), the extracted body is
re-emitted, and an uncaught loader error propagates. -/
def save_file (data : List (String × JVal)) (markers : String) (old : Option String) :
    Except YamlErr String :=
  match old with
  | none => .ok (merged_doc (pyUnion [] data) markers "")
  | some content => do
    let previous_header ← extract_yaml_doc content
    .ok (merged_doc (pyUnion previous_header data) markers (extract_file_text content))

/-! ## List renderer (`write_ratings_list`, `render_list`) -/

/-- The character substitutions of `Book.name`'s translation table. -/
def nameChar (c : Char) : List Char :=
  if c = ':' then [] else if c = '/' then ['-'] else if c = '\\' then [] else [c]

/-- `Book.name`: the title up to the first `:` or `(`, translated (`:` and
`\` removed, `/` turned into `-`) and stripped. -/
def Book.name (b : Book) : String :=
  let n := (b.title.data.takeWhile (fun c => c ≠ ':')).takeWhile (fun c => c ≠ '(')
  String.mk (stripChars (n.map nameChar).flatten)

/-- `date().isoformat()` of a datetime. -/
def pyDateIso (d : PyDateTime) : String :=
  String.mk (pad4 d.year ++ '-' :: pad2 d.month ++ '-' :: pad2 d.day)

/-- The first line of the ratings list; `now` is the injected
`datetime.now().isoformat(' ', 'minutes')` string. -/
def ratings_header (books : List Book) (now : String) : String :=
  "Leidos " ++ toString books.length ++ " libros (" ++ now ++ ")"

/-- What one book's `print` emits before its newline: the date/cross-reference
line, or the empty string when `read_date` is absent. -/
def ratings_line (b : Book) (dirName : String) : String :=
  match b.read_date with
  | some d =>
    "- [[" ++ pyDateIso d ++ "]] ᐧ [[" ++ dirName ++ "/" ++ b.name ++ "|" ++ b.name ++ "]]"
  | none => ""

/-- `write_ratings_list` as a text: header `print` ending in a blank line,
then one `print` per book — an *empty* print (still a newline) when
`read_date` is absent. -/
def write_ratings_list (books : List Book) (now dirName : String) : String :=
  ratings_header books now ++ "\n\n" ++
    strConcat (books.map (fun b => ratings_line b dirName ++ "\n"))

/-- The documents directory: path ↦ file content. -/
abbrev TextFS := List (String × String)

/-- `asdict(book)` with the two rewrites `render_list` applies before saving:
`author` becomes a wiki link and `read_date` its plain ISO date.  The
attribute access `book.read_date.date()` raises on `None`, modelled as
`none`. -/
def render_book_data (b : Book) : Option (List (String × JVal)) :=
  match b.read_date with
  | none => none
  | some d =>
    some
      [("title", .jstr b.title), ("url", .jstr b.url), ("book_id", .jstr b.book_id),
       ("description", .jstr b.description), ("pages", optIntJ b.pages),
       ("author", .jstr ("[[Autores/" ++ b.author ++ "|" ++ b.author ++ "]]")),
       ("isbn", match b.isbn with | none => .jnull | some s => .jstr s),
       ("read_date", .jstr (pyDateIso d)),
       ("rating", match b.rating with | none => .jnull | some q => .jrat q),
       ("year", optIntJ b.year)]

/-- The exceptions `render_list` can let escape per book. -/
inductive RenderErr where
  | attrError
  | yamlError (e : YamlErr)
deriving DecidableEq

/-- The per-book body of `render_list`'s loop: nothing happens unless the
book's document already exists (`if path.exists():`). -/
def render_book (fs : TextFS) (booksDirName : String) (b : Book) : Except RenderErr TextFS :=
  match alookup fs (booksDirName ++ "/" ++ b.name ++ ".md") with
  | none => .ok fs
  | some content =>
    match render_book_data b with
    | none => .error .attrError
    | some data =>
      match save_file data "#libro" (some content) with
      | .error e => .error (.yamlError e)
      | .ok out => .ok (ainsert fs (booksDirName ++ "/" ++ b.name ++ ".md") out)

/-- `render_list`: write the aggregate ratings list document, then run the
merge over each book whose document already exists.  `booksDirName` plays the
role of the relative `args.books_dir` (both the path prefix and the `dir.name`
the list lines cite). -/
def render_list (books : List Book) (fs : TextFS) (listPath booksDirName now : String) :
    Except RenderErr TextFS :=
  books.foldlM (fun fs b => render_book fs booksDirName b)
    (ainsert fs listPath (write_ratings_list books now booksDirName))

/-! ## Specification-side definitions used to compare against the source -/

/-- The Record Extractor as the specification words its boundary: consume
events strictly up to — and *not including* — the next Start event named
`item`; End events of the container do not end the item.  Declared only to be
compared with `parse_item`. -/
def parse_item_claimed_loop : List Event → Option String → RawItem → RawItem × List Event
  | [], _, item => (item, [])
  | e :: rest, curr, item =>
    if e.name = "item" ∧ e.is_start then (item, e :: rest)
    else if e.is_start then parse_item_claimed_loop rest (some e.name) item
    else if e.is_text ∧ pyTruthy curr then
      parse_item_claimed_loop rest curr (itemAppend item curr e.value)
    else if e.is_end then
      parse_item_claimed_loop rest none (itemSet item curr (soupText (pyStrip (itemGet item curr))))
    else parse_item_claimed_loop rest curr item

/-- The claimed extractor: same skip-to-Start opening as the source, boundary
on Start events only. -/
def parse_item_claimed (events : List Event) : RawItem × List Event :=
  parse_item_claimed_loop (skip_to_item_start events) none []

/-! ## Shapes used to state the amended extraction and merge claims -/

/-- The field-accumulation state machine of `parse_item` run over a plain
event list with no boundary test: states what the events between an item's
boundaries contribute. -/
def processEvents : List Event → Option String → RawItem → RawItem
  | [], _, item => item
  | e :: rest, curr, item =>
    if e.is_start then processEvents rest (some e.name) item
    else if e.is_text ∧ pyTruthy curr then processEvents rest curr (itemAppend item curr e.value)
    else if e.is_end then
      processEvents rest none (itemSet item curr (soupText (pyStrip (itemGet item curr))))
    else processEvents rest curr item

/-- The raw item assembled from one item body. -/
def itemOf (body : List Event) : RawItem := processEvents body none []

/-- A whitespace text node, as pulldom emits between sibling elements of a
real feed. -/
def wsEvent : Event := ⟨Status.CHARACTERS, "#text", " "⟩

/-- One `<item>` element followed by inter-item whitespace. -/
def itemEvents (body : List Event) : List Event :=
  ⟨Status.START_ELEMENT, "item", ""⟩ :: body ++ [⟨Status.END_ELEMENT, "item", ""⟩, wsEvent]

/-- A feed page whose items are separated by whitespace text events (as real
pretty-printed RSS is), closed by the channel End. -/
def feedOf (bodies : List (List Event)) : List Event :=
  wsEvent :: (bodies.map itemEvents).flatten ++ [⟨Status.END_ELEMENT, "channel", ""⟩]

/-- A character-level line: non-empty, newline-terminated, no interior
newline. -/
def CharLine (l : List Char) : Prop :=
  l ≠ [] ∧ l.getLast? = some '\n' ∧ '\n' ∉ l.dropLast

instance (l : List Char) : Decidable (CharLine l) := by
  unfold CharLine
  infer_instance

/-- A newline-terminated line with no interior newline. -/
def isLine (l : String) : Bool :=
  l.data ≠ [] && l.data.getLast? = some '\n' && l.data.dropLast.all (fun c => c ≠ '\n')

/-- A concrete book with every optional field present, used at witnesses. -/
def readBook : Book :=
  ⟨"The Pragmatic Programmer", "https://example.org/b/42", "42", "desc",
    some 352, "Hunt", some "020161622X", some ⟨2018, 11, 30, 7, 8, 0, -480⟩,
    some (4 : ℚ), some 1999⟩

/-- A concrete book with every optional field absent (no `read_date`). -/
def unreadBook : Book :=
  ⟨"Untitled", "https://example.org/b/43", "43", "", none, "Anon", none, none,
    none, none⟩

/-- Concrete books used to instantiate hypotheses at witnesses. -/
def sampleBooks : List Book := [readBook, unreadBook]

/-- The retention test of `parse_list`: a truthy `book_id`. -/
def keepItem (i : RawItem) : Bool := itemGet i (some "book_id") != ""

/-- An event stream in which the item End events precede the next item Start:
the ordinary well-nested framing of any real feed. -/
def fieldEvents (v : String) : List Event :=
  [⟨Status.START_ELEMENT, "book_id", ""⟩, ⟨Status.CHARACTERS, "#text", v⟩,
   ⟨Status.END_ELEMENT, "book_id", ""⟩]

/-- Three adjacent `<item>` elements (no whitespace between siblings), all
with non-empty `book_id`, inside a channel. -/
def adjacentFeed : List Event :=
  ⟨Status.START_ELEMENT, "item", ""⟩ :: fieldEvents "1" ++
    [⟨Status.END_ELEMENT, "item", ""⟩, ⟨Status.START_ELEMENT, "item", ""⟩] ++
    fieldEvents "2" ++
    [⟨Status.END_ELEMENT, "item", ""⟩, ⟨Status.START_ELEMENT, "item", ""⟩] ++
    fieldEvents "3" ++
    [⟨Status.END_ELEMENT, "item", ""⟩, ⟨Status.END_ELEMENT, "channel", ""⟩]

/-- Events around an item whose well-nested End precedes the next item Start,
with an extra element between the two items: distinguishes a name-only
boundary test from a Start-only one. -/
def boundaryEvents : List Event :=
  [⟨Status.START_ELEMENT, "item", ""⟩,
   ⟨Status.START_ELEMENT, "a", ""⟩, ⟨Status.CHARACTERS, "#text", "x"⟩,
   ⟨Status.END_ELEMENT, "a", ""⟩,
   ⟨Status.END_ELEMENT, "item", ""⟩,
   ⟨Status.START_ELEMENT, "b", ""⟩, ⟨Status.CHARACTERS, "#text", "y"⟩,
   ⟨Status.END_ELEMENT, "b", ""⟩,
   ⟨Status.START_ELEMENT, "item", ""⟩]

/-- A plain scalar safe for the flat-header YAML model (and for `ruamel`'s
plain style): no newline/tab/comment character, no `": "` sequence, an
alphanumeric or sign first character, no trailing space. -/
def goodScalar (s : String) : Bool :=
  s.data.all (fun c => c.isAlphanum || c == ' ' || c == '.' || c == '_' || c == '-' ||
    c == '/' || c == ':' || c == ',' || c == '(' || c == ')' || c == '|') &&
  !(decide ([':', ' '] <:+: s.data)) &&
  (match s.data with | [] => true | c :: _ => c.isAlphanum) &&
  (match s.data.getLast? with | none => true | some c => !(c == ' '))

/-- A mapping key of the shape the program's field names have: a letter
followed by alphanumerics/underscores. -/
def goodKey (k : String) : Bool :=
  (match k.data with | [] => false | c :: _ => c.isAlpha) &&
  k.data.all (fun c => c.isAlphanum || c == '_')

/-- A header mapping with distinct well-formed keys and plain scalar values:
the region where the YAML model matches the library it stands for. -/
def GoodDict (d : List (String × JVal)) : Prop :=
  (d.map Prod.fst).Nodup ∧ ∀ p ∈ d, goodKey p.1 = true ∧ goodScalar (renderVal p.2) = true

instance (d : List (String × JVal)) : Decidable (GoodDict d) := by
  unfold GoodDict
  infer_instance

/-- Marker text none of whose printed lines is the `----` separator line. -/
def GoodMarkers (m : String) : Prop :=
  ∀ l ∈ splitLinesKeep (m.data ++ ['\n']), l ≠ sepString.data

instance (m : String) : Decidable (GoodMarkers m) := by
  unfold GoodMarkers
  infer_instance

/-- What the loader reads back from a dumped header: the sorted keys, each
value the raw string of its rendering. -/
def jstrDump (d : List (String × JVal)) : List (String × JVal) :=
  (sortedKeys d).map (fun k => (k, JVal.jstr (renderVal ((alookup d k).getD JVal.jnull))))

/-- The dumped pair lines of a header. -/
def pairLines (d : List (String × JVal)) : List String :=
  (sortedKeys d).map (headerLineFor d)

/-- The printed lines of the marker block (`markers` plus its newline). -/
def markerLines (m : String) : List String :=
  (splitLinesKeep (m.data ++ ['\n'])).map String.mk

/-- All lines of a merged document before the `----` separator line. -/
def preLines (d : List (String × JVal)) (m : String) : List String :=
  "---\n" :: pairLines d ++ ["...\n", "---\n", "\n"] ++ markerLines m ++ ["\n"]

/-- A dumped header line without its trailing newline, as the loader's line
splitter recovers it. -/
def pieceLine (d : List (String × JVal)) (k : String) : String :=
  String.mk (headerLineFor d k).data.dropLast

/-! # Theorems

Shared helper lemmas first, then one theorem per specification claim (with its
counterexample and witness where required). -/


theorem data_mk (l : List Char) : (String.mk l).data = l := rfl

theorem digit?_digitChar (d : Nat) (h : d < 10) : digit? (digitChar d) = some d := by
  interval_cases d <;> decide

theorem readDigit_digitChar (d : Nat) (h : d < 10) (l : List Char) :
    readDigit (digitChar d :: l) = some (d, l) := by
  simp [readDigit, digit?_digitChar d h]

theorem read2_pad2 (n : Nat) (h : n < 100) (l : List Char) :
    read2 (pad2 n ++ l) = some (n, l) := by
  have h1 : n / 10 < 10 := by omega
  have h2 : n % 10 < 10 := by omega
  simp [pad2, read2, readDigit_digitChar _ h1, readDigit_digitChar _ h2]
  omega

theorem readLit_cons (c : Char) (l : List Char) : readLit c (c :: l) = some l := by
  simp [readLit]

theorem pad4_eq (y : Nat) : pad4 y = pad2 (y / 100) ++ pad2 (y % 100) := by
  have a : y / 1000 = y / 100 / 10 := by omega
  have b : y / 10 % 10 = y % 100 / 10 := by omega
  have c : y % 10 = y % 100 % 10 := by omega
  simp [pad4, pad2, a, b, c]

theorem readYMD_spec (y mo dy : Nat) (hy : y < 10000) (hmo : mo < 100) (hdy : dy < 100)
    (l : List Char) :
    readYMD (pad4 y ++ '-' :: pad2 mo ++ '-' :: pad2 dy ++ l) = some ((y, mo, dy), l) := by
  have hy12 : y / 100 < 100 := by omega
  have hy34 : y % 100 < 100 := by omega
  simp only [readYMD, pad4_eq, List.append_assoc, List.cons_append,
    read2_pad2 _ hy12, read2_pad2 _ hy34, read2_pad2 _ hmo, read2_pad2 _ hdy,
    readLit_cons, Option.bind_eq_bind, Option.some_bind, Option.pure_def,
    Option.some.injEq, Prod.mk.injEq]
  exact ⟨⟨by omega, trivial⟩, trivial⟩

theorem readHMS_spec (hh mi se : Nat) (h1 : hh < 100) (h2 : mi < 100) (h3 : se < 100)
    (l : List Char) :
    readHMS (pad2 hh ++ ':' :: pad2 mi ++ ':' :: pad2 se ++ l) = some ((hh, mi, se), l) := by
  simp only [readHMS, List.append_assoc, List.cons_append,
    read2_pad2 _ h1, read2_pad2 _ h2, read2_pad2 _ h3,
    readLit_cons, Option.bind_eq_bind, Option.some_bind, Option.pure_def]

theorem readOffset_spec (tz : Int) (h : tz.natAbs < 6000) (l : List Char) :
    readOffset ((if 0 ≤ tz then '+' else '-') ::
      pad2 (tz.natAbs / 60) ++ ':' :: pad2 (tz.natAbs % 60) ++ l) = some (tz, l) := by
  have h1 : tz.natAbs / 60 < 100 := by omega
  have h2 : tz.natAbs % 60 < 100 := by omega
  rcases le_or_lt 0 tz with hs | hs
  · simp only [if_pos hs, readOffset, readSign, List.cons_append, List.append_assoc,
      read2_pad2 _ h1, read2_pad2 _ h2, readLit_cons, Option.bind_eq_bind,
      Option.some_bind, Option.pure_def, Option.some.injEq, Prod.mk.injEq]
    exact ⟨by omega, trivial⟩
  · simp only [if_neg (by omega : ¬ 0 ≤ tz), readOffset, readSign, List.cons_append,
      List.append_assoc, read2_pad2 _ h1, read2_pad2 _ h2, readLit_cons,
      Option.bind_eq_bind, Option.some_bind, Option.pure_def, Option.some.injEq,
      Prod.mk.injEq]
    exact ⟨by omega, trivial⟩

theorem fromiso_pyDateTimeStr (d : PyDateTime) (h : ValidDT d) :
    datetime_fromisoformat (pyDateTimeStr d) = some d := by
  obtain ⟨h1, h2, h3, h4, h5, h6, h7⟩ := h
  rcases d with ⟨y, mo, dy, hh, mi, se, tz⟩
  simp only at h1 h2 h3 h4 h5 h6 h7
  have e1 : (pyDateTimeStr ⟨y, mo, dy, hh, mi, se, tz⟩).data =
      pad4 y ++ '-' :: pad2 mo ++ '-' :: pad2 dy ++
      ' ' :: (pad2 hh ++ ':' :: pad2 mi ++ ':' :: pad2 se ++
      ((if 0 ≤ tz then '+' else '-') :: pad2 (tz.natAbs / 60) ++ ':' :: pad2 (tz.natAbs % 60) ++ [])) := by
    simp [pyDateTimeStr, data_mk]
  simp only [datetime_fromisoformat, e1,
    readYMD_spec y mo dy h1 h2 h3, readLit_cons,
    readHMS_spec hh mi se h4 h5 h6, readOffset_spec tz h7,
    Option.bind_eq_bind, Option.some_bind, Option.pure_def]
  simp [guard]


theorem decodeBook_encodeBook (b : Book) (h : ValidBook b) :
    decodeBook (encodeBook b) = some b := by
  rcases b with ⟨t, u, bid, desc, pg, au, isb, rd, ra, yr⟩
  cases rd with
  | none => cases pg <;> cases isb <;> cases ra <;> cases yr <;> rfl
  | some d =>
    have hd : ValidDT d := h
    cases pg <;> cases isb <;> cases ra <;> cases yr <;>
      simp [decodeBook, encodeBook, alookup, optIntJ, bookFieldNames,
        fromiso_pyDateTimeStr d hd]

theorem mapM_decode_encode (books : List Book) (h : ∀ b ∈ books, ValidBook b) :
    (books.map encodeBook).mapM decodeBook = some books := by
  induction books with
  | nil => rfl
  | cons b bs ih =>
    simp only [List.map_cons, List.mapM_cons,
      decodeBook_encodeBook b (h b (by simp)), ih (fun x hx => h x (by simp [hx])),
      Option.bind_eq_bind, Option.some_bind, Option.pure_def]


/-- Claim C8: serializing a `BookCollection` to the cache snapshot JSON format
(`set_cached` stores `encodeBook` objects) and deserializing it back the way
`get_cached` does yields an equal collection — absent optional fields stay
`None` and the `read_date` timestamp round-trips exactly, timezone included. -/
theorem book_snapshot_round_trip (books : List Book) (h : ∀ b ∈ books, ValidBook b) :
    (books.map encodeBook).mapM decodeBook = some books :=
  mapM_decode_encode books h

theorem book_snapshot_round_trip_witness :
    (sampleBooks.map encodeBook).mapM decodeBook = some sampleBooks :=
  book_snapshot_round_trip sampleBooks (by decide)


theorem get_cached_decoded (fs : CacheFS) (id today : String) (arr : List (List (String × JVal)))
    (books : List Book) (h1 : alookup fs (get_cache_file id today) = some arr)
    (h2 : arr.mapM decodeBook = some books) :
    get_cached fs id today = .ok (some books) := by
  unfold get_cached
  simp only [h1, h2]

theorem get_list_hit (driver : List Book) (fs : CacheFS) (id today : String)
    (arr : List (List (String × JVal))) (b : Book) (bs : List Book)
    (h1 : alookup fs (get_cache_file id today) = some arr)
    (h2 : arr.mapM decodeBook = some (b :: bs)) :
    get_list driver fs id today = .ok (b :: bs, fs, 0) := by
  unfold get_list get_cached
  simp only [h1, h2]
  rfl

theorem get_list_refetch_empty (driver : List Book) (fs : CacheFS) (id today : String)
    (arr : List (List (String × JVal)))
    (h1 : alookup fs (get_cache_file id today) = some arr)
    (h2 : arr.mapM decodeBook = some []) :
    get_list driver fs id today = .ok (driver, fs, 1) := by
  unfold get_list get_cached set_cached
  simp only [h1, h2]
  rfl

theorem get_list_decode_error (driver : List Book) (fs : CacheFS) (id today : String)
    (arr : List (List (String × JVal)))
    (h1 : alookup fs (get_cache_file id today) = some arr)
    (h2 : arr.mapM decodeBook = none) :
    get_list driver fs id today = .error () := by
  unfold get_list get_cached
  simp only [h1, h2]
  rfl

theorem get_list_miss (driver : List Book) (fs : CacheFS) (id today : String)
    (h1 : alookup fs (get_cache_file id today) = none) :
    get_list driver fs id today =
      .ok (driver, ainsert fs (get_cache_file id today) (driver.map encodeBook), 1) := by
  unfold get_list get_cached set_cached
  simp only [h1]
  rfl

/-- Claim C5 (amended): when a *non-empty* decodable snapshot exists for the
key, `get_list` returns the collection the snapshot was written from with
zero driver invocations and an unchanged store; when no snapshot exists it
runs the driver once, persists the result, and returns it; and whenever a
snapshot file exists — even one holding an empty collection, which Python
truthiness sends back to the driver — the store is never overwritten. -/
theorem get_list_cache_gate (driver books0 : List Book) (fs : CacheFS) (id today : String) :
    (alookup fs (get_cache_file id today) = some (books0.map encodeBook) →
      (∀ b ∈ books0, ValidBook b) → books0 ≠ [] →
      get_list driver fs id today = .ok (books0, fs, 0)) ∧
    (alookup fs (get_cache_file id today) = none →
      get_list driver fs id today =
        .ok (driver, ainsert fs (get_cache_file id today) (driver.map encodeBook), 1)) ∧
    (∀ r, get_list driver fs id today = .ok r →
      (alookup fs (get_cache_file id today)).isSome → r.2.1 = fs) := by
  refine ⟨?_, ?_, ?_⟩
  · intro h1 h2 h3
    rcases books0 with _ | ⟨b, bs⟩
    · exact absurd rfl h3
    · exact get_list_hit driver fs id today _ b bs h1 (mapM_decode_encode _ h2)
  · intro h1
    exact get_list_miss driver fs id today h1
  · intro r hr hsome
    rcases h1 : alookup fs (get_cache_file id today) with _ | arr
    · rw [h1] at hsome; simp at hsome
    · rcases h2 : arr.mapM decodeBook with _ | books
      · rw [get_list_decode_error driver fs id today arr h1 h2] at hr
        exact absurd hr (by simp)
      · rcases books with _ | ⟨b, bs⟩
        · rw [get_list_refetch_empty driver fs id today arr h1 h2] at hr
          cases hr
          rfl
        · rw [get_list_hit driver fs id today arr b bs h1 h2] at hr
          cases hr
          rfl

theorem get_list_cache_gate_witness :
    get_list [] [(get_cache_file "read" "2026-10-12", sampleBooks.map encodeBook)]
        "read" "2026-10-12" =
      .ok (sampleBooks,
        [(get_cache_file "read" "2026-10-12", sampleBooks.map encodeBook)], 0) :=
  (get_list_cache_gate [] sampleBooks
      [(get_cache_file "read" "2026-10-12", sampleBooks.map encodeBook)]
      "read" "2026-10-12").1 rfl (by decide) (by decide)

theorem get_list_empty_snapshot_cex :
    (alookup ([(get_cache_file "read" "2026-10-12", [])] : CacheFS)
        (get_cache_file "read" "2026-10-12")).isSome = true ∧
    get_list sampleBooks [(get_cache_file "read" "2026-10-12", [])] "read" "2026-10-12" =
      .ok (sampleBooks, [(get_cache_file "read" "2026-10-12", [])], 1) ∧
    sampleBooks ≠ [] := by
  refine ⟨by decide, ?_, by decide⟩
  exact get_list_refetch_empty sampleBooks _ "read" "2026-10-12" [] rfl rfl

/-- Claim C7 (amended): header extraction degrades to the empty mapping on
scanner-level errors, `ValueError`s and non-mapping documents — for every file
content it either succeeds (so the merge proceeds) or propagates the one
uncaught loader failure, the parser-level error (e.g. an unterminated flow
collection). -/
theorem extract_yaml_doc_error_taxonomy (content : String) :
    (∃ d, extract_yaml_doc content = .ok d) ∨
      extract_yaml_doc content = .error .parserError := by
  unfold extract_yaml_doc
  cases h : yaml_load_first (joinNl ((pyLines content).takeWhile (fun l => l ≠ "...\n"))) with
  | error e => cases e <;> simp
  | ok d =>
    match d with
    | none => simp
    | some .nonDict => simp
    | some (.dmap ps) => simp

theorem extract_yaml_doc_raises_cex :
    extract_yaml_doc "[broken\n----\nbody\n" = .error .parserError ∧
    save_file [("a", .jstr "b")] "#libro" (some "[broken\n----\nbody\n") =
      .error .parserError := by
  decide



theorem alookup_append {α : Type} (l1 l2 : List (String × α)) (k : String) :
    alookup (l1 ++ l2) k = (alookup l1 k).or (alookup l2 k) := by
  induction l1 with
  | nil => simp [alookup]
  | cons p rest ih =>
    rcases p with ⟨k', v⟩
    by_cases h : k' = k
    · simp [alookup, h]
    · simp [alookup, h, ih]

theorem alookup_map_val {α β : Type} (f : String → α → β) (l : List (String × α)) (k : String) :
    alookup (l.map (fun p => (p.1, f p.1 p.2))) k = (alookup l k).map (f k) := by
  induction l with
  | nil => simp [alookup]
  | cons p rest ih =>
    rcases p with ⟨k', v⟩
    by_cases h : k' = k
    · subst h; simp [alookup]
    · simp [alookup, h, ih]

theorem alookup_filter_key {α : Type} (q : String → Bool) (l : List (String × α)) (k : String) :
    alookup (l.filter (fun p => q p.1)) k = if q k then alookup l k else none := by
  induction l with
  | nil => simp [alookup]
  | cons p rest ih =>
    rcases p with ⟨k', v⟩
    by_cases h : k' = k
    · subst h
      by_cases hq : q k'
      · simp [alookup, hq, List.filter]
      · simp [alookup, hq, List.filter, ih]
    · by_cases hq : q k'
      · simp [alookup, h, hq, List.filter, ih]
      · simp [alookup, h, hq, List.filter, ih]

/-- Claim C3: the header written by `save_file` is the left-biased union with
the new fields winning — `previous_header | data` maps every key of `data` to
its new value and every key only in `previous_header` to its previous value. -/
theorem header_merge_left_biased (prev data : List (String × JVal)) (k : String) :
    ((alookup data k).isSome → alookup (pyUnion prev data) k = alookup data k) ∧
    (alookup data k = none → alookup (pyUnion prev data) k = alookup prev k) := by
  unfold pyUnion
  rw [alookup_append, alookup_map_val (fun k v => (alookup data k).getD v),
    alookup_filter_key (fun k => (alookup prev k).isNone)]
  rcases hp : alookup prev k with _ | v <;> rcases hd : alookup data k with _ | w <;>
    simp [hp, hd]

theorem header_merge_left_biased_witness :
    alookup (pyUnion [("a", .jstr "old"), ("z", .jstr "keep")] [("a", .jstr "new")]) "a" =
        some (.jstr "new") ∧
      alookup (pyUnion [("a", .jstr "old"), ("z", .jstr "keep")] [("a", .jstr "new")]) "z" =
        some (.jstr "keep") :=
  ⟨by
    have h := (header_merge_left_biased [("a", .jstr "old"), ("z", .jstr "keep")]
      [("a", .jstr "new")] "a").1 (by decide)
    simpa using h,
   by
    have h := (header_merge_left_biased [("a", .jstr "old"), ("z", .jstr "keep")]
      [("a", .jstr "new")] "z").2 (by decide)
    simpa using h⟩



theorem skip_to_item_start_spec (pre : List Event) (s : Event) (l : List Event)
    (hpre : ∀ e ∈ pre, ¬(e.name = "item" ∧ e.is_start))
    (hs : s.name = "item" ∧ s.is_start) :
    skip_to_item_start (pre ++ s :: l) = l := by
  induction pre with
  | nil => simp [skip_to_item_start, hs.1, hs.2]
  | cons e rest ih =>
    have he := hpre e (by simp)
    simp only [List.cons_append, skip_to_item_start, if_neg he]
    exact ih (fun x hx => hpre x (by simp [hx]))

theorem parse_item_loop_boundary (bdry : Event) (rest : List Event) (hbdry : bdry.name = "item")
    (mid : List Event) :
    ∀ (curr : Option String) (item : RawItem), (∀ e ∈ mid, e.name ≠ "item") →
      parse_item_loop (mid ++ bdry :: rest) curr item = (processEvents mid curr item, rest) := by
  induction mid with
  | nil =>
    intro curr item _
    simp [parse_item_loop, hbdry, processEvents]
  | cons e es ih =>
    intro curr item hmid
    have he : e.name ≠ "item" := hmid e (by simp)
    have ih' := fun curr item => ih curr item (fun x hx => hmid x (by simp [hx]))
    simp only [List.cons_append, parse_item_loop, processEvents, if_neg he]
    split_ifs <;> exact ih' _ _

/-- Claim C4 (amended): after the opening Start of the `item` container,
`parse_item` consumes events up to — and, being a `takewhile`, also consumes —
the first subsequent event *named* `item`, whether Start or End (ordinarily
the well-nested End of the same item), and assembles exactly the fields of the
events strictly before that boundary. -/
theorem parse_item_boundary (pre mid rest : List Event) (s bdry : Event)
    (hpre : ∀ e ∈ pre, ¬(e.name = "item" ∧ e.is_start))
    (hs : s.name = "item" ∧ s.is_start)
    (hmid : ∀ e ∈ mid, e.name ≠ "item")
    (hbdry : bdry.name = "item") :
    parse_item (pre ++ s :: (mid ++ bdry :: rest)) = (itemOf mid, rest) := by
  unfold parse_item itemOf
  rw [skip_to_item_start_spec pre s _ hpre hs]
  exact parse_item_loop_boundary bdry rest hbdry mid none [] hmid

theorem parse_item_boundary_witness :
    parse_item ([wsEvent] ++ ⟨Status.START_ELEMENT, "item", ""⟩ ::
        (fieldEvents "7" ++ ⟨Status.END_ELEMENT, "item", ""⟩ :: [wsEvent])) =
      (itemOf (fieldEvents "7"), [wsEvent]) :=
  parse_item_boundary [wsEvent] (fieldEvents "7") [wsEvent]
    ⟨Status.START_ELEMENT, "item", ""⟩ ⟨Status.END_ELEMENT, "item", ""⟩
    (by decide) (by decide) (by decide) (by decide)

theorem parse_item_boundary_cex :
    parse_item boundaryEvents ≠ parse_item_claimed boundaryEvents ∧
    itemGet (parse_item boundaryEvents).1 (some "b") = "" ∧
    itemGet (parse_item_claimed boundaryEvents).1 (some "b") = "y" := by
  decide



theorem skip_to_item_start_length (l : List Event) :
    (skip_to_item_start l).length ≤ l.length := by
  induction l with
  | nil => simp [skip_to_item_start]
  | cons e rest ih =>
    simp only [skip_to_item_start]
    split_ifs
    · simp
    · simp only [List.length_cons]
      omega

theorem parse_item_loop_length (l : List Event) :
    ∀ (curr : Option String) (item : RawItem),
      (parse_item_loop l curr item).2.length ≤ l.length := by
  induction l with
  | nil => intro curr item; simp [parse_item_loop]
  | cons e rest ih =>
    intro curr item
    simp only [parse_item_loop, List.length_cons]
    split_ifs
    · simp
    · exact le_trans (ih _ _) (by omega)
    · exact le_trans (ih _ _) (by omega)
    · exact le_trans (ih _ _) (by omega)
    · exact le_trans (ih _ _) (by omega)

theorem parse_item_length (l : List Event) : (parse_item l).2.length ≤ l.length :=
  le_trans (parse_item_loop_length _ none []) (skip_to_item_start_length l)

theorem parse_list_aux_fuel (f1 : Nat) :
    ∀ (f2 : Nat) (l : List Event), l.length < f1 → l.length < f2 →
      parse_list_aux f1 l = parse_list_aux f2 l := by
  induction f1 with
  | zero => intro f2 l h1 _; omega
  | succ f1 ih =>
    intro f2 l h1 h2
    cases l with
    | nil =>
      cases f2 with
      | zero => omega
      | succ f2 => rfl
    | cons e rest =>
      cases f2 with
      | zero => omega
      | succ f2 =>
        simp only [parse_list_aux]
        have hr := parse_item_length rest
        simp only [List.length_cons] at h1 h2
        rw [ih f2 (parse_item rest).2 (by omega) (by omega)]



theorem parse_list_aux_nil (f : Nat) (hf : 0 < f) : parse_list_aux f [] = [] := by
  cases f with
  | zero => omega
  | succ f => rfl

theorem parse_list_aux_feed_step (b Y : List Event) (f : Nat)
    (hb : ∀ e ∈ b, e.name ≠ "item") :
    parse_list_aux (f + 1) (wsEvent :: (itemEvents b ++ Y)) =
      (if keepItem (itemOf b) then [itemOf b] else []) ++ parse_list_aux f (wsEvent :: Y) := by
  have hsplit : itemEvents b ++ Y =
      ([] : List Event) ++ (⟨Status.START_ELEMENT, "item", ""⟩ ::
        (b ++ ⟨Status.END_ELEMENT, "item", ""⟩ :: (wsEvent :: Y))) := by
    simp [itemEvents]
  have hpi : parse_item (itemEvents b ++ Y) = (itemOf b, wsEvent :: Y) := by
    unfold parse_item itemOf
    rw [hsplit, skip_to_item_start_spec [] _ _ (by simp) (by decide)]
    exact parse_item_loop_boundary _ _ (by decide) b none [] hb
  simp only [parse_list_aux, hpi]
  have hws : ¬(wsEvent.is_end ∧ wsEvent.name = "channel") := by decide
  rw [if_neg hws]
  by_cases hk : itemGet (itemOf b) (some "book_id") = ""
  · simp [hk, keepItem]
  · simp [hk, keepItem]

theorem feedOf_cons_length (b : List Event) (bs : List (List Event)) :
    (feedOf (b :: bs)).length = (feedOf bs).length + b.length + 3 := by
  simp [feedOf, itemEvents]
  omega

theorem parse_list_aux_feedOf (bodies : List (List Event)) :
    ∀ fuel, (feedOf bodies).length < fuel →
      (∀ b ∈ bodies, ∀ e ∈ b, e.name ≠ "item") →
      parse_list_aux fuel (feedOf bodies) = (bodies.map itemOf).filter keepItem := by
  induction bodies with
  | nil =>
    intro fuel hf h
    have hlen : (feedOf ([] : List (List Event))).length = 2 := by decide
    rw [hlen] at hf
    obtain ⟨f, rfl⟩ : ∃ f, fuel = f + 1 := ⟨fuel - 1, by omega⟩
    have hpi : parse_item [(⟨Status.END_ELEMENT, "channel", ""⟩ : Event)] = ([], []) := by decide
    have hfeed : feedOf ([] : List (List Event)) =
        wsEvent :: [⟨Status.END_ELEMENT, "channel", ""⟩] := by decide
    rw [hfeed]
    simp only [parse_list_aux, hpi]
    have hws : ¬(wsEvent.is_end ∧ wsEvent.name = "channel") := by decide
    rw [if_neg hws]
    simp only [itemGet, ne_eq, not_true_eq_false, if_false, reduceIte]
    simp [parse_list_aux_nil f (by omega)]
  | cons b bs ih =>
    intro fuel hf h
    obtain ⟨f, rfl⟩ : ∃ f, fuel = f + 1 := ⟨fuel - 1, by omega⟩
    have hfeed : feedOf (b :: bs) =
        wsEvent :: (itemEvents b ++
          ((bs.map itemEvents).flatten ++ [⟨Status.END_ELEMENT, "channel", ""⟩])) := by
      simp [feedOf]
    rw [hfeed, parse_list_aux_feed_step b _ f (h b (by simp))]
    have hrest : wsEvent :: ((bs.map itemEvents).flatten ++
        [(⟨Status.END_ELEMENT, "channel", ""⟩ : Event)]) = feedOf bs := rfl
    have hlen : (feedOf bs).length < f := by
      have := feedOf_cons_length b bs
      omega
    rw [hrest, ih f hlen (fun x hx => h x (by simp [hx]))]
    rw [List.map_cons, List.filter_cons]
    by_cases hk : keepItem (itemOf b) <;> simp [hk]

/-- Claim C9 (amended): on a feed page whose items are separated by non-item
events (the whitespace text real pretty-printed feeds carry between
siblings), extraction keeps one raw item per `<item>` element, drops exactly
those whose `book_id` field is empty or missing, and returns the remaining
books in their original relative order. -/
theorem parse_list_separated_feed (bodies : List (List Event))
    (h : ∀ b ∈ bodies, ∀ e ∈ b, e.name ≠ "item") :
    parse_list (feedOf bodies) =
      (((bodies.map itemOf).filter keepItem).map Book.from_goodreads) := by
  unfold parse_list
  rw [parse_list_aux_feedOf bodies ((feedOf bodies).length + 1) (by omega) h]

theorem parse_list_separated_feed_witness :
    parse_list (feedOf [fieldEvents "1", fieldEvents "", fieldEvents "3"]) =
      ((([fieldEvents "1", fieldEvents "", fieldEvents "3"].map itemOf).filter
        keepItem).map Book.from_goodreads) ∧
    (parse_list (feedOf [fieldEvents "1", fieldEvents "", fieldEvents "3"])).map
        Book.book_id = ["1", "3"] :=
  ⟨parse_list_separated_feed [fieldEvents "1", fieldEvents "", fieldEvents "3"] (by decide),
   by decide⟩

theorem parse_list_adjacent_items_cex :
    (parse_list adjacentFeed).map Book.book_id = ["2"] ∧
    (parse_list adjacentFeed).map Book.book_id ≠ ["1", "2", "3"] := by
  decide



theorem mk_data (s : String) : String.mk s.data = s := rfl

theorem strData_append (a b : String) : (a ++ b).data = a.data ++ b.data := rfl

theorem splitOnCharAux_line (sep : Char) (A : List Char) :
    ∀ (R acc : List Char), sep ∉ A →
      splitOnCharAux sep (A ++ sep :: R) acc = (acc.reverse ++ A) :: splitOnCharAux sep R [] := by
  induction A with
  | nil => intro R acc _; simp [splitOnCharAux]
  | cons c A' ih =>
    intro R acc h
    have hc : c ≠ sep := by
      intro hc
      exact h (by simp [hc])
    simp only [List.cons_append, splitOnCharAux, if_neg hc, List.append_eq]
    rw [ih R (c :: acc) (by intro hx; exact h (by simp [hx]))]
    simp

theorem splitOnChar_line (sep : Char) (A R : List Char) (h : sep ∉ A) :
    splitOnChar sep (A ++ sep :: R) = A :: splitOnChar sep R := by
  unfold splitOnChar
  rw [splitOnCharAux_line sep A R [] h]
  simp

theorem splitOnChar_ratings_body (dirName : String) (books : List Book)
    (hB : ∀ b ∈ books, '\n' ∉ (ratings_line b dirName).data) :
    splitOnChar '\n' (strConcat (books.map (fun b => ratings_line b dirName ++ "\n"))).data =
      books.map (fun b => (ratings_line b dirName).data) ++ [[]] := by
  induction books with
  | nil => rfl
  | cons b bs ih =>
    have hdata : (strConcat ((b :: bs).map (fun b => ratings_line b dirName ++ "\n"))).data =
        (ratings_line b dirName).data ++ '\n' ::
          (strConcat (bs.map (fun b => ratings_line b dirName ++ "\n"))).data := by
      simp [strConcat, strData_append]
    rw [hdata, splitOnChar_line '\n' _ _ (hB b (by simp)),
      ih (fun x hx => hB x (by simp [hx]))]
    simp

/-- Claim C6 (amended): the ratings list is the count/timestamp header line, a
blank line, then exactly one line per book of the collection *in order* — the
date/cross-reference line when `read_date` is present, an *empty* line (not no
line at all: the `print` still emits its newline) when it is absent. -/
theorem write_ratings_lines (books : List Book) (now dirName : String)
    (hH : '\n' ∉ (ratings_header books now).data)
    (hB : ∀ b ∈ books, '\n' ∉ (ratings_line b dirName).data) :
    (splitNlStr (write_ratings_list books now dirName) =
      ratings_header books now :: "" ::
        (books.map (fun b => ratings_line b dirName) ++ [""])) ∧
    (∀ b ∈ books, b.read_date = none → ratings_line b dirName = "") := by
  constructor
  · unfold splitNlStr write_ratings_list
    have hdata : (ratings_header books now ++ "\n\n" ++
        strConcat (books.map (fun b => ratings_line b dirName ++ "\n"))).data =
        (ratings_header books now).data ++ '\n' :: '\n' ::
          (strConcat (books.map (fun b => ratings_line b dirName ++ "\n"))).data := by
      simp [strData_append]
    rw [hdata, splitOnChar_line '\n' _ _ hH]
    have h2 : ('\n' :: (strConcat (books.map (fun b => ratings_line b dirName ++ "\n"))).data) =
        [] ++ '\n' :: (strConcat (books.map (fun b => ratings_line b dirName ++ "\n"))).data := rfl
    rw [h2, splitOnChar_line '\n' [] _ (by simp), splitOnChar_ratings_body dirName books hB]
    simp [mk_data]
  · intro b _ hb
    simp [ratings_line, hb]

theorem write_ratings_lines_witness :
    (splitNlStr (write_ratings_list sampleBooks "2026-10-12 09:00" "Libros") =
      ratings_header sampleBooks "2026-10-12 09:00" :: "" ::
        (sampleBooks.map (fun b => ratings_line b "Libros") ++ [""])) ∧
    (∀ b ∈ sampleBooks, b.read_date = none → ratings_line b "Libros" = "") :=
  write_ratings_lines sampleBooks "2026-10-12 09:00" "Libros" (by decide) (by decide)

theorem write_ratings_blank_line_cex :
    write_ratings_list [unreadBook] "2026-10-12 09:00" "Libros" =
      "Leidos 1 libros (2026-10-12 09:00)\n\n\n" ∧
    write_ratings_list [unreadBook] "2026-10-12 09:00" "Libros" ≠
      "Leidos 1 libros (2026-10-12 09:00)\n\n" ∧
    unreadBook.read_date = none := by
  decide



theorem alookup_ainsert {α : Type} (fs : List (String × α)) (k : String) (v : α) (p : String) :
    alookup (ainsert fs k v) p = if p = k then some v else alookup fs p := by
  induction fs with
  | nil =>
    simp only [ainsert, alookup]
    by_cases h : p = k
    · rw [if_pos h.symm, if_pos h]
    · rw [if_neg (fun hh : k = p => h hh.symm), if_neg h]
  | cons q rest ih =>
    rcases q with ⟨k', v'⟩
    simp only [ainsert]
    by_cases h1 : k' = k
    · subst h1
      simp only [if_pos rfl, alookup]
      by_cases h2 : k' = p
      · rw [if_pos h2, if_pos h2.symm]
      · rw [if_neg h2, if_neg (fun hh : p = k' => h2 hh.symm), if_neg h2]
    · rw [if_neg h1]
      simp only [alookup]
      by_cases h2 : k' = p
      · have hpk : ¬ p = k := fun hh => h1 (h2.trans hh)
        rw [if_pos h2, if_neg hpk, if_pos h2]
      · rw [if_neg h2, ih, if_neg h2]

theorem render_book_domain (fs : TextFS) (dirName : String) (b : Book) (fs2 : TextFS)
    (h : render_book fs dirName b = .ok fs2) (p : String) :
    (alookup fs2 p).isSome = (alookup fs p).isSome := by
  unfold render_book at h
  rcases h1 : alookup fs (dirName ++ "/" ++ b.name ++ ".md") with _ | content
  · simp only [h1] at h
    cases h
    rfl
  · simp only [h1] at h
    rcases h2 : render_book_data b with _ | data
    · simp only [h2] at h
      cases h
    · simp only [h2] at h
      rcases h3 : save_file data "#libro" (some content) with e | out
      · simp only [h3] at h
        cases h
      · simp only [h3] at h
        cases h
        rw [alookup_ainsert]
        by_cases hp : p = dirName ++ "/" ++ b.name ++ ".md"
        · subst hp
          simp [h1]
        · simp [hp]

theorem render_fold_domain (books : List Book) :
    ∀ (fs0 fs' : TextFS) (dirName : String),
      books.foldlM (fun fs b => render_book fs dirName b) fs0 = .ok fs' →
      ∀ p, (alookup fs' p).isSome = (alookup fs0 p).isSome := by
  induction books with
  | nil =>
    intro fs0 fs' dirName h p
    cases h
    rfl
  | cons b bs ih =>
    intro fs0 fs' dirName h p
    rcases h1 : render_book fs0 dirName b with e | fs1
    · rw [List.foldlM_cons, h1] at h
      cases h
    · rw [List.foldlM_cons, h1] at h
      rw [ih fs1 fs' dirName h p, render_book_domain fs0 dirName b fs1 h1 p]

/-- Claim C10 (amended): `render_list` never creates a book's target document
— `if path.exists():` restricts the merge to documents that already exist, so
apart from (re)writing the aggregate list document the set of existing files
is unchanged: no book document is created and none is deleted.  Existing book
documents are rewritten in place through `save_file`. -/
theorem render_list_domain (books : List Book) (fs : TextFS)
    (listPath dirName now : String) (fs' : TextFS)
    (h : render_list books fs listPath dirName now = .ok fs') :
    ∀ p, p ≠ listPath → (alookup fs' p).isSome = (alookup fs p).isSome := by
  intro p hp
  unfold render_list at h
  rw [render_fold_domain books _ fs' dirName h p, alookup_ainsert]
  simp [hp]

theorem render_list_domain_witness :
    (alookup (ainsert ([] : TextFS) "Listas/Libros Leidos.md"
        (write_ratings_list [readBook] "2026-10-12 09:00" "Libros"))
      ("Libros/" ++ readBook.name ++ ".md")).isSome =
      (alookup ([] : TextFS) ("Libros/" ++ readBook.name ++ ".md")).isSome :=
  render_list_domain [readBook] [] "Listas/Libros Leidos.md" "Libros" "2026-10-12 09:00"
    (ainsert [] "Listas/Libros Leidos.md"
      (write_ratings_list [readBook] "2026-10-12 09:00" "Libros"))
    (by decide) ("Libros/" ++ readBook.name ++ ".md") (by decide)

theorem render_list_no_create_cex :
    render_list [readBook] [] "Listas/Libros Leidos.md" "Libros" "2026-10-12 09:00" =
      .ok [("Listas/Libros Leidos.md",
        write_ratings_list [readBook] "2026-10-12 09:00" "Libros")] ∧
    alookup [("Listas/Libros Leidos.md",
        write_ratings_list [readBook] "2026-10-12 09:00" "Libros")]
      ("Libros/" ++ readBook.name ++ ".md") = none := by
  decide



theorem strData_ext (a b : String) (h : a.data = b.data) : a = b := by
  cases a
  cases b
  exact congrArg String.mk h

theorem splitLinesAux_line (A : List Char) :
    ∀ (R acc : List Char), '\n' ∉ A →
      splitLinesAux (A ++ '\n' :: R) acc = (acc.reverse ++ A ++ ['\n']) :: splitLinesAux R [] := by
  induction A with
  | nil => intro R acc _; simp [splitLinesAux]
  | cons c A' ih =>
    intro R acc h
    have hc : c ≠ '\n' := fun hh => h (by simp [hh])
    simp only [List.cons_append, splitLinesAux, if_neg hc, List.append_eq]
    rw [ih R (c :: acc) (fun hx => h (by simp [hx]))]
    simp

theorem splitLinesAux_append (A : List Char) :
    ∀ (R acc : List Char), A ≠ [] → A.getLast? = some '\n' →
      splitLinesAux (A ++ R) acc = splitLinesAux A acc ++ splitLinesAux R [] := by
  induction A with
  | nil => intro R acc h _; exact absurd rfl h
  | cons c A' ih =>
    intro R acc _ hlast
    by_cases hA' : A' = []
    · subst hA'
      simp only [List.getLast?_singleton, Option.some.injEq] at hlast
      subst hlast
      simp [splitLinesAux]
    · have hlast' : A'.getLast? = some '\n' := by
        cases A' with
        | nil => exact absurd rfl hA'
        | cons x xs => rw [List.getLast?_cons_cons] at hlast; exact hlast
      by_cases hc : c = '\n'
      · subst hc
        simp only [List.cons_append, splitLinesAux, List.append_eq, reduceIte]
        rw [ih R [] hA' hlast']
      · simp only [List.cons_append, splitLinesAux, List.append_eq]
        rw [if_neg hc, if_neg hc, ih R (c :: acc) hA' hlast']

theorem splitLinesAux_flatten (l : List Char) :
    ∀ acc, (splitLinesAux l acc).flatten = acc.reverse ++ l := by
  induction l with
  | nil =>
    intro acc
    by_cases h : acc.isEmpty
    · simp [splitLinesAux, h, List.isEmpty_iff.mp h]
    · simp [splitLinesAux, h]
  | cons c cs ih =>
    intro acc
    by_cases hc : c = '\n'
    · subst hc
      simp only [splitLinesAux, List.flatten_cons, reduceIte]
      rw [ih []]
      simp
    · simp only [splitLinesAux, if_neg hc]
      rw [ih (c :: acc)]
      simp

theorem splitLinesKeep_flatten (l : List Char) : (splitLinesKeep l).flatten = l := by
  simpa using splitLinesAux_flatten l []

theorem strConcat_data (ls : List String) : (strConcat ls).data = (ls.map String.data).flatten := by
  induction ls with
  | nil => rfl
  | cons a rest ih =>
    have h1 : strConcat (a :: rest) = a ++ strConcat rest := rfl
    rw [h1, strData_append, ih, List.map_cons, List.flatten_cons]

theorem strConcat_pyLines (s : String) : strConcat (pyLines s) = s := by
  apply strData_ext
  rw [strConcat_data]
  unfold pyLines
  rw [List.map_map]
  have : (String.data ∘ String.mk) = id := rfl
  rw [this, List.map_id, splitLinesKeep_flatten]

theorem charLine_of_isLine (l : String) (h : isLine l = true) : CharLine l.data := by
  unfold isLine at h
  simp only [Bool.and_eq_true, decide_eq_true_eq, List.all_eq_true] at h
  exact ⟨h.1.1, h.1.2, fun hx => by
    have := h.2 '\n' hx
    simp at this⟩

theorem charLine_decomp (l : List Char) (h : CharLine l) :
    ∃ A, l = A ++ ['\n'] ∧ '\n' ∉ A := by
  rcases h with ⟨h1, h2, h3⟩
  refine ⟨l.dropLast, ?_, h3⟩
  have := List.dropLast_append_getLast h1
  rw [List.getLast?_eq_getLast l h1] at h2
  simp only [Option.some.injEq] at h2
  rw [← h2]
  exact this.symm

theorem splitLinesKeep_cons_line (l : List Char) (R : List Char) (h : CharLine l) :
    splitLinesKeep (l ++ R) = l :: splitLinesKeep R := by
  obtain ⟨A, rfl, hA⟩ := charLine_decomp l h
  unfold splitLinesKeep
  rw [List.append_assoc, List.singleton_append, splitLinesAux_line A R [] hA]
  simp

theorem splitLinesKeep_lines (LS : List (List Char)) (h : ∀ l ∈ LS, CharLine l) :
    splitLinesKeep LS.flatten = LS := by
  induction LS with
  | nil => rfl
  | cons l rest ih =>
    rw [List.flatten_cons, splitLinesKeep_cons_line l _ (h l (by simp)),
      ih (fun x hx => h x (by simp [hx]))]



theorem extract_lines (pre : List String) (rest : String)
    (hpre : ∀ l ∈ pre, isLine l = true) :
    splitLinesKeep (strConcat pre ++ sepString ++ rest).data =
      pre.map String.data ++ [sepString.data] ++ splitLinesKeep rest.data := by
  induction pre with
  | nil =>
    have h0 : (strConcat [] ++ sepString ++ rest).data = sepString.data ++ rest.data := by
      simp [strConcat, strData_append]
    rw [h0, splitLinesKeep_cons_line _ _ (by decide)]
    simp
  | cons l pre' ih =>
    have h0 : (strConcat (l :: pre') ++ sepString ++ rest).data =
        l.data ++ (strConcat pre' ++ sepString ++ rest).data := by
      have h1 : strConcat (l :: pre') = l ++ strConcat pre' := rfl
      rw [h1]
      simp [strData_append]
    rw [h0, splitLinesKeep_cons_line _ _ (charLine_of_isLine l ((hpre l (by simp)))),
      ih (fun x hx => hpre x (by simp [hx]))]
    simp

theorem pyLines_decomp (pre : List String) (rest : String)
    (hpre : ∀ l ∈ pre, isLine l = true) :
    pyLines (strConcat pre ++ sepString ++ rest) = pre ++ sepString :: pyLines rest := by
  unfold pyLines
  rw [extract_lines pre rest hpre]
  have hcomp : String.mk ∘ String.data = id := funext mk_data
  simp [List.map_map, hcomp]

theorem dropWhile_ne_sep (pre : List String) (h : ∀ l ∈ pre, l ≠ sepString)
    (tail : List String) :
    (pre ++ sepString :: tail).dropWhile (fun l => l ≠ sepString) = sepString :: tail := by
  induction pre with
  | nil => simp [List.dropWhile]
  | cons l pre' ih =>
    have hne := h l (by simp)
    have hd : decide (l ≠ sepString) = true := by simp [hne]
    simp only [List.cons_append, List.dropWhile, hd, List.append_eq]
    exact ih (fun x hx => h x (by simp [hx]))

theorem extract_file_text_decomp (pre : List String) (rest : String)
    (hpre : ∀ l ∈ pre, isLine l = true ∧ l ≠ sepString) :
    extract_file_text (strConcat pre ++ sepString ++ rest) = pyStrip rest := by
  unfold extract_file_text
  have hinf : sepString.data <:+: (strConcat pre ++ sepString ++ rest).data := by
    refine ⟨(strConcat pre).data, rest.data, ?_⟩
    simp [strData_append]
  rw [if_pos hinf, pyLines_decomp pre rest (fun l hl => (hpre l hl).1),
    dropWhile_ne_sep pre (fun l hl => (hpre l hl).2) (pyLines rest)]
  simp [strConcat_pyLines]

theorem save_file_ok (data : List (String × JVal)) (markers content : String)
    (prev : List (String × JVal)) (h : extract_yaml_doc content = .ok prev) :
    save_file data markers (some content) =
      .ok (merged_doc (pyUnion prev data) markers (extract_file_text content)) := by
  simp only [save_file, h]
  rfl

/-- Claim C1 (amended): for an existing document made of newline-terminated
header-region lines (none equal to the `----` separator line) followed by the
first `----` line and the remaining content, exactly that remaining content is
treated as the body — but it is reproduced *stripped of surrounding
whitespace* and re-emitted after a blank line with a final newline
(`merged_doc`), not byte-for-byte. -/
theorem extract_and_save_body (pre : List String) (rest : String)
    (data : List (String × JVal)) (markers : String) (prev : List (String × JVal))
    (hpre : ∀ l ∈ pre, isLine l = true ∧ l ≠ sepString)
    (hy : extract_yaml_doc (strConcat pre ++ sepString ++ rest) = .ok prev) :
    extract_file_text (strConcat pre ++ sepString ++ rest) = pyStrip rest ∧
    save_file data markers (some (strConcat pre ++ sepString ++ rest)) =
      .ok (merged_doc (pyUnion prev data) markers (pyStrip rest)) := by
  have h1 := extract_file_text_decomp pre rest hpre
  exact ⟨h1, by rw [save_file_ok data markers _ prev hy, h1]⟩

theorem extract_and_save_body_witness :
    extract_file_text (strConcat ["---\n", "a: b\n", "...\n", "---\n", "\n", "#libro\n", "\n"] ++
        sepString ++ "  user body  \n") = pyStrip "  user body  \n" ∧
    save_file [("a", JVal.jstr "c")] "#libro"
        (some (strConcat ["---\n", "a: b\n", "...\n", "---\n", "\n", "#libro\n", "\n"] ++
          sepString ++ "  user body  \n")) =
      .ok (merged_doc (pyUnion [("a", JVal.jstr "b")] [("a", JVal.jstr "c")]) "#libro"
        (pyStrip "  user body  \n")) :=
  extract_and_save_body ["---\n", "a: b\n", "...\n", "---\n", "\n", "#libro\n", "\n"]
    "  user body  \n" [("a", JVal.jstr "c")] "#libro" [("a", JVal.jstr "b")]
    (by decide) (by decide)

theorem save_file_not_verbatim_cex :
    extract_file_text "head\n----\n  body  \n" = "body" ∧
    save_file [] "#libro" (some "head\n----\n  body  \n") =
      .ok "---\n...\n---\n\n#libro\n\n----\n\nbody\n" ∧
    ¬ ("  body  \n".data <:+: ("---\n...\n---\n\n#libro\n\n----\n\nbody\n").data) := by
  decide



theorem alookup_mem {α : Type} (d : List (String × α)) (k : String) (v : α)
    (h : alookup d k = some v) : (k, v) ∈ d := by
  induction d with
  | nil => simp [alookup] at h
  | cons p rest ih =>
    rcases p with ⟨k', v'⟩
    by_cases hk : k' = k
    · subst hk
      simp only [alookup, reduceIte, Option.some.injEq] at h
      subst h
      simp
    · simp only [alookup, if_neg hk] at h
      simp [ih h]

theorem alookup_isSome_iff {α : Type} (d : List (String × α)) (k : String) :
    (alookup d k).isSome = true ↔ k ∈ d.map Prod.fst := by
  induction d with
  | nil => simp [alookup]
  | cons p rest ih =>
    rcases p with ⟨k', v'⟩
    by_cases hk : k' = k
    · subst hk
      simp [alookup]
    · simp only [alookup, if_neg hk, List.map_cons, List.mem_cons, ih]
      constructor
      · intro h; exact Or.inr h
      · intro h
        rcases h with h | h
        · exact absurd h.symm hk
        · exact h

theorem alookup_eq_none_iff {α : Type} (d : List (String × α)) (k : String) :
    alookup d k = none ↔ k ∉ d.map Prod.fst := by
  rw [← alookup_isSome_iff]
  cases alookup d k <;> simp

theorem pyUnion_lookup_right (a b : List (String × JVal)) (k : String) (w : JVal)
    (h : alookup b k = some w) : alookup (pyUnion a b) k = some w := by
  unfold pyUnion
  rw [alookup_append, alookup_map_val (fun k v => (alookup b k).getD v),
    alookup_filter_key (fun k => (alookup a k).isNone)]
  rcases ha : alookup a k with _ | v
  · simp [ha, h]
  · simp [ha, h]

theorem pyUnion_lookup_left (a b : List (String × JVal)) (k : String)
    (h : alookup b k = none) : alookup (pyUnion a b) k = alookup a k := by
  unfold pyUnion
  rw [alookup_append, alookup_map_val (fun k v => (alookup b k).getD v),
    alookup_filter_key (fun k => (alookup a k).isNone)]
  rcases ha : alookup a k with _ | v
  · simp [ha, h]
  · simp [ha, h]

theorem pyUnion_keys_iff (a b : List (String × JVal)) (k : String) :
    k ∈ (pyUnion a b).map Prod.fst ↔ k ∈ a.map Prod.fst ∨ k ∈ b.map Prod.fst := by
  rw [← alookup_isSome_iff, ← alookup_isSome_iff, ← alookup_isSome_iff]
  rcases hb : alookup b k with _ | w
  · rw [pyUnion_lookup_left a b k hb]
    simp [hb]
  · rw [pyUnion_lookup_right a b k w hb]
    simp [hb]

theorem mem_sortedKeys_iff (d : List (String × JVal)) (k : String) :
    k ∈ sortedKeys d ↔ k ∈ d.map Prod.fst := by
  unfold sortedKeys
  rw [(List.perm_insertionSort (· ≤ ·) (d.map Prod.fst).dedup).mem_iff, List.mem_dedup]

theorem sortedKeys_nodup (d : List (String × JVal)) : (sortedKeys d).Nodup := by
  unfold sortedKeys
  exact (List.perm_insertionSort (· ≤ ·) (d.map Prod.fst).dedup).nodup_iff.mpr
    (List.nodup_dedup _)

theorem sortedKeys_congr (d1 d2 : List (String × JVal))
    (h : ∀ k, k ∈ d1.map Prod.fst ↔ k ∈ d2.map Prod.fst) :
    sortedKeys d1 = sortedKeys d2 := by
  have hperm : List.Perm (sortedKeys d1) (sortedKeys d2) := by
    refine (List.perm_ext_iff_of_nodup (sortedKeys_nodup d1) (sortedKeys_nodup d2)).mpr ?_
    intro k
    rw [mem_sortedKeys_iff, mem_sortedKeys_iff]
    exact h k
  have hs1 : (sortedKeys d1).Sorted (fun a b : String => a ≤ b) :=
    List.sorted_insertionSort _ _
  have hs2 : (sortedKeys d2).Sorted (fun a b : String => a ≤ b) :=
    List.sorted_insertionSort _ _
  exact List.eq_of_perm_of_sorted hperm hs1 hs2

theorem alookup_map_key {α : Type} (ks : List String) (f : String → α) (k : String)
    (hk : k ∈ ks) : alookup (ks.map (fun k => (k, f k))) k = some (f k) := by
  induction ks with
  | nil => simp at hk
  | cons k' rest ih =>
    by_cases h : k' = k
    · subst h
      simp [alookup]
    · rcases List.mem_cons.mp hk with h1 | h1
      · exact absurd h1.symm h
      · simp only [List.map_cons, alookup, if_neg h]
        exact ih h1

theorem yamlDump_congr (d1 d2 : List (String × JVal))
    (hk : sortedKeys d1 = sortedKeys d2)
    (hv : ∀ k ∈ sortedKeys d1,
      renderVal ((alookup d1 k).getD JVal.jnull) = renderVal ((alookup d2 k).getD JVal.jnull)) :
    yamlDump d1 = yamlDump d2 := by
  unfold yamlDump
  rw [hk]
  have : (sortedKeys d2).map (headerLineFor d1) = (sortedKeys d2).map (headerLineFor d2) := by
    apply List.map_congr_left
    intro k hkmem
    unfold headerLineFor
    rw [hv k (hk ▸ hkmem)]
  rw [this]

theorem goodDict_key_render (d : List (String × JVal)) (hd : GoodDict d) (k : String)
    (hk : k ∈ sortedKeys d) :
    goodKey k = true ∧ goodScalar (renderVal ((alookup d k).getD JVal.jnull)) = true := by
  have hmem : k ∈ d.map Prod.fst := (mem_sortedKeys_iff d k).mp hk
  have hsome := (alookup_isSome_iff d k).mpr hmem
  rcases hv : alookup d k with _ | v
  · rw [hv] at hsome; simp at hsome
  · have := hd.2 (k, v) (alookup_mem d k v hv)
    simpa using this



theorem charLine_append_nl (A : List Char) (h : '\n' ∉ A) : CharLine (A ++ ['\n']) := by
  refine ⟨by simp, by simp, ?_⟩
  rw [List.dropLast_concat]
  exact h

theorem isLine_of_charLine (l : String) (h : CharLine l.data) : isLine l = true := by
  rcases h with ⟨h1, h2, h3⟩
  unfold isLine
  simp only [Bool.and_eq_true, decide_eq_true_eq, List.all_eq_true]
  exact ⟨⟨h1, h2⟩, fun c hc => by simpa using fun hh : c = '\n' => h3 (hh ▸ hc)⟩

theorem splitLinesAux_charLine (Y : List Char) :
    ∀ acc, Y ≠ [] → Y.getLast? = some '\n' → '\n' ∉ acc →
      ∀ l ∈ splitLinesAux Y acc, CharLine l := by
  induction Y with
  | nil => intro acc h _ _ _ hl; exact absurd rfl h
  | cons c cs ih =>
    intro acc _ hlast hacc l hl
    by_cases hcs : cs = []
    · subst hcs
      simp only [List.getLast?_singleton, Option.some.injEq] at hlast
      subst hlast
      simp only [splitLinesAux, reduceIte, List.isEmpty_nil] at hl
      rcases List.mem_cons.mp hl with h1 | h1
      · subst h1
        exact charLine_append_nl _ (by simpa using hacc)
      · simp at h1
    · have hlast' : cs.getLast? = some '\n' := by
        cases cs with
        | nil => exact absurd rfl hcs
        | cons x xs => rw [List.getLast?_cons_cons] at hlast; exact hlast
      by_cases hc : c = '\n'
      · subst hc
        simp only [splitLinesAux, reduceIte] at hl
        rcases List.mem_cons.mp hl with h1 | h1
        · subst h1
          exact charLine_append_nl _ (by simpa using hacc)
        · exact ih [] hcs hlast' (by simp) l h1
      · simp only [splitLinesAux, if_neg hc] at hl
        exact ih (c :: acc) hcs hlast' (by simpa using ⟨fun h => hc h.symm, hacc⟩) l hl

theorem markerLines_wf (m : String) : ∀ l ∈ markerLines m, isLine l = true := by
  intro l hl
  unfold markerLines at hl
  rcases List.mem_map.mp hl with ⟨lc, hmem, rfl⟩
  have hcl : CharLine lc :=
    splitLinesAux_charLine (m.data ++ ['\n']) [] (by simp) (by simp) (by simp) lc hmem
  exact isLine_of_charLine _ hcl

theorem str_ne_of_mem_not_mem (a b : String) (c : Char) (h1 : c ∈ a.data)
    (h2 : c ∉ b.data) : a ≠ b := fun hh => h2 (hh ▸ h1)

theorem headerLineFor_data (d : List (String × JVal)) (k : String) :
    (headerLineFor d k).data =
      (k.data ++ ':' :: ' ' :: (renderVal ((alookup d k).getD JVal.jnull)).data) ++ ['\n'] := by
  unfold headerLineFor
  simp [strData_append]

theorem goodKey_chars (k : String) (hk : goodKey k = true) :
    k.data ≠ [] ∧ (∀ c ∈ k.data, c.isAlphanum = true ∨ c = '_') ∧
      (∃ c, k.data.head? = some c ∧ c.isAlpha = true) := by
  unfold goodKey at hk
  simp only [Bool.and_eq_true, List.all_eq_true] at hk
  rcases hk with ⟨hh, hall⟩
  rcases hd : k.data with _ | ⟨c, rest⟩
  · rw [hd] at hh; simp at hh
  · refine ⟨by simp, ?_, ⟨c, rfl, by rw [hd] at hh; simpa using hh⟩⟩
    intro x hx
    have := hall x (hd ▸ hx)
    rcases Bool.or_eq_true _ _ |>.mp this with h | h
    · exact Or.inl h
    · exact Or.inr (by simpa using h)

theorem goodScalar_chars (s : String) (hs : goodScalar s = true) :
    ∀ c ∈ s.data, c ≠ '\n' ∧ c ≠ '\t' := by
  unfold goodScalar at hs
  simp only [Bool.and_eq_true, List.all_eq_true] at hs
  intro c hc
  have := hs.1.1.1 c hc
  constructor
  · intro rfl_h
    subst rfl_h
    simp at this
  · intro rfl_h
    subst rfl_h
    simp at this

theorem goodKey_char_ne (c : Char) (h : c.isAlphanum = true ∨ c = '_') :
    c ≠ '\n' ∧ c ≠ '\t' ∧ c ≠ ':' := by
  rcases h with h | h
  · refine ⟨?_, ?_, ?_⟩ <;> intro hh <;> subst hh <;> simp at h
  · subst h
    refine ⟨by decide, by decide, by decide⟩

theorem headerLine_wf (d : List (String × JVal)) (hd : GoodDict d) (k : String)
    (hk : k ∈ sortedKeys d) :
    isLine (headerLineFor d k) = true ∧ headerLineFor d k ≠ sepString ∧
      headerLineFor d k ≠ "...\n" := by
  obtain ⟨hgk, hgs⟩ := goodDict_key_render d hd k hk
  obtain ⟨hne, hchars, _⟩ := goodKey_chars k hgk
  have hcolon : ':' ∈ (headerLineFor d k).data := by
    rw [headerLineFor_data]
    simp
  have hline : CharLine (headerLineFor d k).data := by
    rw [headerLineFor_data]
    apply charLine_append_nl
    intro hmem
    rcases List.mem_append.mp hmem with h1 | h1
    · exact (goodKey_char_ne _ (hchars _ h1)).1 rfl
    · rcases List.mem_cons.mp h1 with h2 | h2
      · simp at h2
      · rcases List.mem_cons.mp h2 with h3 | h3
        · simp at h3
        · exact ((goodScalar_chars _ hgs) _ h3).1 rfl
  refine ⟨isLine_of_charLine _ hline, ?_, ?_⟩
  · exact str_ne_of_mem_not_mem _ _ ':' hcolon (by decide)
  · exact str_ne_of_mem_not_mem _ _ ':' hcolon (by decide)

theorem preLines_wf (d : List (String × JVal)) (m : String) (hd : GoodDict d)
    (hm : GoodMarkers m) :
    ∀ l ∈ preLines d m, isLine l = true ∧ l ≠ sepString := by
  intro l hl
  unfold preLines pairLines markerLines at hl
  simp only [List.mem_cons, List.mem_append, List.mem_map, List.mem_singleton] at hl
  rcases hl with ((h1 | h2) | ⟨lc, hmem, rfl⟩) | (rfl | h0)
  · rcases h1 with rfl | ⟨k, hk, rfl⟩
    · exact ⟨by decide, by decide⟩
    · obtain ⟨ha, hb, _⟩ := headerLine_wf d hd k hk
      exact ⟨ha, hb⟩
  · rcases h2 with rfl | rfl | rfl | h0
    · exact ⟨by decide, by decide⟩
    · exact ⟨by decide, by decide⟩
    · exact ⟨by decide, by decide⟩
    · simp at h0
  · have hcl : CharLine lc :=
      splitLinesAux_charLine (m.data ++ ['\n']) [] (by simp) (by simp) (by simp) lc hmem
    refine ⟨isLine_of_charLine _ hcl, ?_⟩
    intro hh
    exact hm lc hmem (congrArg String.data hh)
  · exact ⟨by decide, by decide⟩
  · simp at h0



theorem pieceLine_data (d : List (String × JVal)) (k : String) :
    (pieceLine d k).data =
      k.data ++ ':' :: ' ' :: (renderVal ((alookup d k).getD JVal.jnull)).data := by
  unfold pieceLine
  rw [data_mk, headerLineFor_data, List.dropLast_concat]

theorem splitColonSpace_cons (c : Char) (l : List Char) (hc : c ≠ ':') :
    splitColonSpace (c :: l) = (splitColonSpace l).map (fun p => (c :: p.1, p.2)) := by
  cases l with
  | nil => simp [splitColonSpace, hc]
  | cons x rest => simp [splitColonSpace, hc]

theorem splitColonSpace_spec (A : List Char) :
    ∀ B, ':' ∉ A → splitColonSpace (A ++ ':' :: ' ' :: B) = some (A, B) := by
  induction A with
  | nil => intro B _; rfl
  | cons c A' ih =>
    intro B h
    have hc : c ≠ ':' := fun hh => h (by simp [hh])
    rw [List.cons_append, splitColonSpace_cons c _ hc, ih B (fun hx => h (by simp [hx]))]
    rfl

theorem goodKey_no_colon (k : String) (hk : goodKey k = true) : ':' ∉ k.data := by
  intro hmem
  obtain ⟨_, hchars, _⟩ := goodKey_chars k hk
  exact (goodKey_char_ne ':' (hchars ':' hmem)).2.2 rfl

theorem pairOf_pieceLine (d : List (String × JVal)) (k : String) (hk : ':' ∉ k.data) :
    pairOf (pieceLine d k) =
      some (k, JVal.jstr (renderVal ((alookup d k).getD JVal.jnull))) := by
  unfold pairOf
  rw [pieceLine_data, splitColonSpace_spec k.data _ hk]

theorem pieceLine_not_blank (d : List (String × JVal)) (k : String) :
    isBlankLine (pieceLine d k) = false := by
  rw [Bool.eq_false_iff]
  intro h
  unfold isBlankLine at h
  rw [pieceLine_data, List.all_eq_true] at h
  exact absurd (h ':' (by simp)) (by decide)

theorem pieceLine_ne_dots (d : List (String × JVal)) (k : String) :
    pieceLine d k ≠ "..." ∧ pieceLine d k ≠ "---" := by
  have hcolon : ':' ∈ (pieceLine d k).data := by rw [pieceLine_data]; simp
  exact ⟨str_ne_of_mem_not_mem _ _ ':' hcolon (by decide),
    str_ne_of_mem_not_mem _ _ ':' hcolon (by decide)⟩

theorem pieceLine_no_tab (d : List (String × JVal)) (k : String)
    (hgk : goodKey k = true)
    (hgs : goodScalar (renderVal ((alookup d k).getD JVal.jnull)) = true) :
    '\t' ∉ (pieceLine d k).data := by
  rw [pieceLine_data]
  intro hmem
  rcases List.mem_append.mp hmem with h1 | h1
  · obtain ⟨_, hchars, _⟩ := goodKey_chars k hgk
    exact (goodKey_char_ne _ (hchars _ h1)).2.1 rfl
  · rcases List.mem_cons.mp h1 with h2 | h2
    · exact absurd h2 (by decide)
    · rcases List.mem_cons.mp h2 with h3 | h3
      · exact absurd h3 (by decide)
      · exact ((goodScalar_chars _ hgs) _ h3).2 rfl

theorem pieceLine_head (d : List (String × JVal)) (k : String)
    (hgk : goodKey k = true) :
    ∃ c, (pieceLine d k).data.head? = some c ∧ c.isAlpha = true := by
  obtain ⟨hne, _, ⟨c, hc, hca⟩⟩ := goodKey_chars k hgk
  refine ⟨c, ?_, hca⟩
  rw [pieceLine_data]
  rcases hdd : k.data with _ | ⟨x, xs⟩
  · exact absurd hdd hne
  · rw [hdd] at hc
    simp only [List.head?_cons, Option.some.injEq] at hc
    subst hc
    rfl

theorem yamlMapLoop_pieces (d : List (String × JVal)) (hd : GoodDict d) :
    ∀ (ks : List String), (∀ k ∈ ks, k ∈ sortedKeys d) → ∀ (acc : List (String × JVal)),
      yamlMapLoop ((ks.map (fun k => [pieceLine d k, ""])).flatten) acc =
        .ok (acc.reverse ++
          ks.map (fun k => (k, JVal.jstr (renderVal ((alookup d k).getD JVal.jnull))))) := by
  intro ks
  induction ks with
  | nil => intro _ acc; simp [yamlMapLoop]
  | cons k ks ih =>
    intro hmem acc
    obtain ⟨hgk, hgs⟩ := goodDict_key_render d hd k (hmem k (by simp))
    have hblank := pieceLine_not_blank d k
    have hdots := pieceLine_ne_dots d k
    have htab := pieceLine_no_tab d k hgk hgs
    have hpair := pairOf_pieceLine d k (goodKey_no_colon k hgk)
    simp only [List.map_cons, List.flatten_cons, List.cons_append]
    rw [yamlMapLoop, if_neg (by simp [hblank]), if_neg (not_or.mpr ⟨hdots.1, hdots.2⟩),
      if_neg htab, hpair]
    show yamlMapLoop ("" :: (ks.map (fun k => [pieceLine d k, ""])).flatten)
        ((k, JVal.jstr (renderVal ((alookup d k).getD JVal.jnull))) :: acc) = _
    rw [yamlMapLoop, if_pos (by decide)]
    rw [ih (fun x hx => hmem x (by simp [hx]))]
    simp



theorem splitNl_joinNl : ∀ (LS : List String), LS ≠ [] → (∀ l ∈ LS, CharLine l.data) →
    splitNlStr (joinNl LS) = (LS.map (fun l => [String.mk l.data.dropLast, ""])).flatten := by
  intro LS
  induction LS with
  | nil => intro h _; exact absurd rfl h
  | cons x rest ih =>
    intro _ hcl
    obtain ⟨A, hA, hAnin⟩ := charLine_decomp x.data (hcl x (by simp))
    cases rest with
    | nil =>
      show splitNlStr x = _
      unfold splitNlStr splitOnChar
      rw [hA, splitOnCharAux_line '\n' A [] [] hAnin]
      simp [hA, List.dropLast_concat, splitOnCharAux]
    | cons y xs =>
      have hj : joinNl (x :: y :: xs) = x ++ "\n" ++ joinNl (y :: xs) := rfl
      have hdata : (x ++ "\n" ++ joinNl (y :: xs)).data =
          A ++ '\n' :: ('\n' :: (joinNl (y :: xs)).data) := by
        rw [strData_append, strData_append, hA]
        simp
      have h2 : splitOnChar '\n' ('\n' :: (joinNl (y :: xs)).data) =
          [] :: splitOnChar '\n' (joinNl (y :: xs)).data := by
        have := splitOnChar_line '\n' [] (joinNl (y :: xs)).data (by simp)
        simpa using this
      have hih := ih (by simp) (fun l hl => hcl l (by simp [hl]))
      unfold splitNlStr at hih
      unfold splitNlStr
      rw [hj, hdata, splitOnChar_line '\n' A _ hAnin, h2]
      simp only [List.map_cons, hih, List.flatten_cons]
      rw [hA, List.dropLast_concat]
      rfl

theorem takeWhile_ne (x : String) (pre tail : List String) (h : ∀ l ∈ pre, l ≠ x) :
    (pre ++ x :: tail).takeWhile (fun l => l ≠ x) = pre := by
  induction pre with
  | nil => simp [List.takeWhile]
  | cons l pre' ih =>
    have hne := h l (by simp)
    have hd : decide (l ≠ x) = true := by simp [hne]
    simp only [List.cons_append, List.takeWhile, hd, List.append_eq]
    rw [ih (fun a ha => h a (by simp [ha]))]

theorem strConcat_append (L1 L2 : List String) :
    strConcat (L1 ++ L2) = strConcat L1 ++ strConcat L2 := by
  apply strData_ext
  rw [strData_append, strConcat_data, strConcat_data, strConcat_data, List.map_append,
    List.flatten_append]

theorem merged_decomp (M : List (String × JVal)) (m t : String) :
    merged_doc M m t = strConcat (preLines M m) ++ sepString ++ ("\n" ++ t ++ "\n") := by
  apply strData_ext
  have hml : (strConcat (markerLines m)).data = m.data ++ ['\n'] := by
    rw [strConcat_data]
    unfold markerLines
    rw [List.map_map]
    have hc : (String.data ∘ String.mk) = id := rfl
    rw [hc, List.map_id, splitLinesKeep_flatten]
  have hyd : (yamlDump M).data =
      "---\n".data ++ (strConcat (pairLines M)).data ++ "...\n".data := by
    unfold yamlDump pairLines
    rw [strData_append, strData_append]
  have e1 : "---\n\n".data = "---\n".data ++ "\n".data := by decide
  have e2 : "\n\n".data = ['\n'] ++ "\n".data := by decide
  have e3 : "----\n\n".data = sepString.data ++ "\n".data := by decide
  have hpre : (strConcat (preLines M m)).data =
      "---\n".data ++ ((strConcat (pairLines M)).data ++ ("...\n".data ++ ("---\n".data ++
        ("\n".data ++ ((m.data ++ ['\n']) ++ "\n".data))))) := by
    unfold preLines
    have hsplit : "---\n" :: pairLines M ++ ["...\n", "---\n", "\n"] ++ markerLines m ++ ["\n"] =
        ["---\n"] ++ pairLines M ++ ["...\n", "---\n", "\n"] ++ markerLines m ++ ["\n"] := by
      simp
    rw [hsplit, strConcat_append, strConcat_append, strConcat_append, strConcat_append]
    rw [strData_append, strData_append, strData_append, strData_append, hml]
    simp [strConcat, strData_append, List.append_assoc]
  unfold merged_doc
  rw [strData_append, strData_append, strData_append, strData_append, strData_append,
    strData_append, strData_append, strData_append, hyd, hpre, e1, e2, e3]
  simp [strData_append, List.append_assoc]



theorem pairLines_mem_key (M : List (String × JVal)) (l : String)
    (hl : l ∈ pairLines M) : ∃ k ∈ sortedKeys M, l = headerLineFor M k := by
  unfold pairLines at hl
  rcases List.mem_map.mp hl with ⟨k, hk, rfl⟩
  exact ⟨k, hk, rfl⟩

theorem yaml_load_header_nil (M : List (String × JVal)) (hsk : sortedKeys M = []) :
    yaml_load_first (joinNl ("---\n" :: pairLines M)) = .ok none := by
  unfold pairLines
  rw [hsk]
  simp only [List.map_nil]
  decide

theorem header_lines_charLine (M : List (String × JVal)) (hd : GoodDict M) :
    ∀ l ∈ ("---\n" :: pairLines M), CharLine l.data := by
  intro l hl
  rcases List.mem_cons.mp hl with rfl | hmem
  · decide
  · obtain ⟨k, hk, rfl⟩ := pairLines_mem_key M l hmem
    exact charLine_of_isLine _ (headerLine_wf M hd k hk).1

theorem split_header_lines (M : List (String × JVal)) (hd : GoodDict M) :
    splitNlStr (joinNl ("---\n" :: pairLines M)) =
      "---" :: "" :: ((sortedKeys M).map (fun k => [pieceLine M k, ""])).flatten := by
  rw [splitNl_joinNl ("---\n" :: pairLines M) (by simp) (header_lines_charLine M hd)]
  simp only [List.map_cons, List.flatten_cons]
  have h1 : String.mk ("---\n".data.dropLast) = "---" := by decide
  rw [h1]
  have h2 : (pairLines M).map (fun l => [String.mk l.data.dropLast, ""]) =
      (sortedKeys M).map (fun k => [pieceLine M k, ""]) := by
    unfold pairLines
    rw [List.map_map]
    rfl
  rw [h2]
  rfl

theorem yaml_load_header_cons (M : List (String × JVal)) (hd : GoodDict M)
    (k0 : String) (ks : List String) (hsk : sortedKeys M = k0 :: ks) :
    yaml_load_first (joinNl ("---\n" :: pairLines M)) =
      .ok (some (.dmap (jstrDump M))) := by
  unfold yaml_load_first
  rw [split_header_lines M hd, hsk]
  simp only [List.map_cons, List.flatten_cons, List.cons_append]
  rw [List.dropWhile_cons]
  rw [if_neg (by decide)]
  simp only [List.nil_append, reduceIte]
  rw [yamlDocBody, if_pos (by decide)]
  obtain ⟨hgk, hgs⟩ := goodDict_key_render M hd k0 (by rw [hsk]; simp)
  have hblank := pieceLine_not_blank M k0
  have hdots := pieceLine_ne_dots M k0
  have htab := pieceLine_no_tab M k0 hgk hgs
  have hpair := pairOf_pieceLine M k0 (goodKey_no_colon k0 hgk)
  obtain ⟨c, hc, hca⟩ := pieceLine_head M k0 hgk
  rw [yamlDocBody, if_neg (by simp [hblank]), if_neg (not_or.mpr ⟨hdots.1, hdots.2⟩),
    if_neg htab, if_neg ?hflow, hpair]
  case hflow =>
    intro hor
    rcases hor with h | h
    · rw [hc] at h
      simp only [Option.some.injEq] at h
      subst h
      exact absurd hca (by decide)
    · rw [hc] at h
      simp only [Option.some.injEq] at h
      subst h
      exact absurd hca (by decide)
  show (yamlMapLoop ("" :: (ks.map (fun k => [pieceLine M k, ""])).flatten) _).map _ = _
  rw [yamlMapLoop, if_pos (by decide)]
  rw [yamlMapLoop_pieces M hd ks (fun k hk => by rw [hsk]; simp [hk]) _]
  unfold jstrDump
  rw [hsk]
  simp [Except.map]



theorem extract_yaml_merged (M : List (String × JVal)) (m t : String)
    (hd : GoodDict M) (hm : GoodMarkers m) :
    extract_yaml_doc (merged_doc M m t) = .ok (jstrDump M) := by
  rw [merged_decomp]
  unfold extract_yaml_doc
  rw [pyLines_decomp (preLines M m) _ (fun l hl => (preLines_wf M m hd hm l hl).1)]
  have harr : preLines M m ++ sepString :: pyLines ("\n" ++ t ++ "\n") =
      ("---\n" :: pairLines M) ++ "...\n" :: (["---\n", "\n"] ++ markerLines m ++ ["\n"] ++
        sepString :: pyLines ("\n" ++ t ++ "\n")) := by
    unfold preLines
    simp [List.append_assoc]
  rw [harr, takeWhile_ne "...\n" _ _ ?hne]
  case hne =>
    intro l hl
    rcases List.mem_cons.mp hl with rfl | hmem
    · decide
    · obtain ⟨k, hk, rfl⟩ := pairLines_mem_key M l hmem
      exact (headerLine_wf M hd k hk).2.2
  rcases hsk : sortedKeys M with _ | ⟨k0, ks⟩
  · rw [yaml_load_header_nil M hsk]
    unfold jstrDump
    rw [hsk]
    simp
  · rw [yaml_load_header_cons M hd k0 ks hsk]

theorem extract_text_merged (M : List (String × JVal)) (m t : String)
    (hd : GoodDict M) (hm : GoodMarkers m) :
    extract_file_text (merged_doc M m t) = pyStrip ("\n" ++ t ++ "\n") := by
  rw [merged_decomp]
  exact extract_file_text_decomp (preLines M m) _ (preLines_wf M m hd hm)

theorem dropWhile_length_eq {α : Type} (p : α → Bool) (l : List α)
    (h : (l.dropWhile p).length = l.length) : l.dropWhile p = l := by
  induction l with
  | nil => rfl
  | cons c X ih =>
    rw [List.dropWhile_cons] at h ⊢
    by_cases hc : p c = true
    · rw [if_pos hc] at h ⊢
      exfalso
      have hle : (X.dropWhile p).length ≤ X.length := (List.dropWhile_suffix p).length_le
      rw [List.length_cons] at h
      omega
    · rw [if_neg hc]

theorem stripChars_eq_self (l : List Char) (h : stripChars l = l) :
    l.dropWhile isPySpace = l ∧ l.reverse.dropWhile isPySpace = l.reverse := by
  have hlen1 : (stripL l).length ≤ l.length := (List.dropWhile_suffix isPySpace).length_le
  have hlen2 : (stripR (stripL l)).length ≤ (stripL l).length := by
    unfold stripR
    rw [List.length_reverse]
    calc ((stripL l).reverse.dropWhile isPySpace).length
        ≤ (stripL l).reverse.length := (List.dropWhile_suffix isPySpace).length_le
      _ = (stripL l).length := List.length_reverse _
  have hlf : (stripChars l).length = l.length := by rw [h]
  unfold stripChars at hlf
  have hl : stripL l = l := by
    apply dropWhile_length_eq
    show (stripL l).length = l.length
    omega
  have hr : stripR l = l := by
    unfold stripChars at h
    rw [hl] at h
    exact h
  refine ⟨hl, ?_⟩
  have hrr := congrArg List.reverse hr
  unfold stripR at hrr
  rw [List.reverse_reverse] at hrr
  exact hrr

theorem pyStrip_pad (t : String) (ht : pyStrip t = t) :
    pyStrip ("\n" ++ t ++ "\n") = t := by
  have hsc : stripChars t.data = t.data := congrArg String.data ht
  obtain ⟨hL, hR⟩ := stripChars_eq_self t.data hsc
  apply strData_ext
  show stripChars ("\n" ++ t ++ "\n").data = t.data
  have hdd : ("\n" ++ t ++ "\n").data = '\n' :: (t.data ++ ['\n']) := by
    rw [strData_append, strData_append]
    simp
  rw [hdd]
  unfold stripChars stripL
  rw [List.dropWhile_cons, if_pos (by decide)]
  rcases hdt : t.data with _ | ⟨c, X⟩
  · decide
  · have hc : isPySpace c = false := by
      by_contra hcc
      rw [Bool.not_eq_false] at hcc
      rw [hdt, List.dropWhile_cons, if_pos hcc] at hL
      have hle : (X.dropWhile isPySpace).length ≤ X.length := (List.dropWhile_suffix isPySpace).length_le
      have h2 := congrArg List.length hL
      rw [List.length_cons] at h2
      omega
    rw [List.cons_append, List.dropWhile_cons, if_neg (by simp [hc])]
    unfold stripR
    rw [show (c :: (X ++ ['\n'])).reverse = '\n' :: (c :: X).reverse by simp]
    rw [List.dropWhile_cons, if_pos (by decide)]
    rw [hdt] at hR
    rw [hR, List.reverse_reverse]

theorem jstrDump_keys (M : List (String × JVal)) :
    (jstrDump M).map Prod.fst = sortedKeys M := by
  unfold jstrDump
  rw [List.map_map]
  have hcong : ∀ k ∈ sortedKeys M,
      (Prod.fst ∘ fun k => (k, JVal.jstr (renderVal ((alookup M k).getD JVal.jnull)))) k =
        id k := fun _ _ => rfl
  rw [List.map_congr_left hcong, List.map_id]

theorem dump_after_reload (prev data : List (String × JVal)) :
    yamlDump (pyUnion (jstrDump (pyUnion prev data)) data) = yamlDump (pyUnion prev data) := by
  apply yamlDump_congr
  · apply sortedKeys_congr
    intro k
    rw [pyUnion_keys_iff, jstrDump_keys, mem_sortedKeys_iff, pyUnion_keys_iff]
    tauto
  · intro k hk
    rcases hb : alookup data k with _ | w
    · have hkM : k ∈ sortedKeys (pyUnion prev data) := by
        rw [mem_sortedKeys_iff] at hk ⊢
        rw [pyUnion_keys_iff, jstrDump_keys, mem_sortedKeys_iff] at hk
        rcases hk with h1 | h1
        · exact h1
        · exact absurd h1 ((alookup_eq_none_iff data k).mp hb)
      rw [pyUnion_lookup_left _ data k hb]
      unfold jstrDump
      rw [alookup_map_key (sortedKeys (pyUnion prev data)) _ k hkM]
      rfl
    · rw [pyUnion_lookup_right _ data k w hb, pyUnion_lookup_right prev data k w hb]



/-- Claim C2 (amended): a document already in the merged layout — flat
well-formed header fields, marker text with no `----` line, and a body already
stripped of surrounding whitespace — is a fixed point of `save_file`: saving
the same fields and markers over it rewrites it byte-identically.  The *first*
invocation is not byte-idempotent in general (the extracted body is stripped
and re-terminated), so outputs only stabilize from the second write onward. -/
theorem save_file_merged_fixed_point (prev data : List (String × JVal)) (m t : String)
    (hM : GoodDict (pyUnion prev data)) (hm : GoodMarkers m) (ht : pyStrip t = t) :
    save_file data m (some (merged_doc (pyUnion prev data) m t)) =
      .ok (merged_doc (pyUnion prev data) m t) := by
  rw [save_file_ok data m _ (jstrDump (pyUnion prev data))
    (extract_yaml_merged (pyUnion prev data) m t hM hm)]
  rw [extract_text_merged (pyUnion prev data) m t hM hm, pyStrip_pad t ht]
  unfold merged_doc
  rw [dump_after_reload prev data]

theorem save_file_merged_fixed_point_witness :
    GoodDict (pyUnion [("z", JVal.jstr "keep")] [("a", JVal.jstr "b")]) ∧
    GoodMarkers "#libro" ∧ pyStrip "hello" = "hello" ∧
    save_file [("a", JVal.jstr "b")] "#libro"
        (some (merged_doc (pyUnion [("z", JVal.jstr "keep")] [("a", JVal.jstr "b")])
          "#libro" "hello")) =
      .ok (merged_doc (pyUnion [("z", JVal.jstr "keep")] [("a", JVal.jstr "b")])
        "#libro" "hello") :=
  ⟨by decide, by decide, by decide,
    save_file_merged_fixed_point [("z", JVal.jstr "keep")] [("a", JVal.jstr "b")]
      "#libro" "hello" (by decide) (by decide) (by decide)⟩

theorem save_file_not_idempotent_cex :
    (save_file [("a", JVal.jstr "b")] "#libro" (some "hello\n")).bind
      (fun out => save_file [("a", JVal.jstr "b")] "#libro" (some out)) ≠
    save_file [("a", JVal.jstr "b")] "#libro" (some "hello\n") := by
  decide


end Goodreads
